import Mathlib

/-!
# Verification of the `SyncAccessHandleVFS` slot pool manager

Shallow embedding of `src/examples/SyncAccessHandleVFS.js`: a fixed-capacity
pool of OPFS file slots backing named SQLite files.  Each slot carries a
header (512-byte null-padded UTF-8 path field followed by an 8-byte digest)
at offset 0.  In-memory state consists of three insertion-ordered maps
(`#mapAccessHandleToName`, `#mapPathToAccessHandle`, `#mapIdToFile`), which we
model as association lists with JavaScript `Map` semantics.

An access handle is identified with the random OPFS file name it is opened
on: within a session, handles and names are in bijection, and the directory
contents are modelled as an association list from names to file contents.
Machine integers appear only in the digest, modelled as naturals reduced
modulo 2^32 at each operation.
-/

namespace WaSqlite

/-! ## JavaScript `Map` semantics over association lists -/

/-- `Map.prototype.get`: value of the first (unique) entry with this key. -/
def mapGet {α β : Type} [DecidableEq α] (m : List (α × β)) (k : α) : Option β :=
  (m.find? (fun e => e.1 = k)).map (·.2)

/-- `Map.prototype.set`: update in place if the key exists (keeping its
position), otherwise append at the end. -/
def mapSet {α β : Type} [DecidableEq α] (m : List (α × β)) (k : α) (v : β) :
    List (α × β) :=
  match m with
  | [] => [(k, v)]
  | e :: t => if e.1 = k then (k, v) :: t else e :: mapSet t k v

/-- `Map.prototype.delete`: remove the entry with this key. -/
def mapDelete {α β : Type} [DecidableEq α] (m : List (α × β)) (k : α) :
    List (α × β) :=
  m.filter (fun e => decide (e.1 ≠ k))

/-- `Map.prototype.has`. -/
def mapHas {α β : Type} [DecidableEq α] (m : List (α × β)) (k : α) : Bool :=
  (mapGet m k).isSome

/-! ## The header digest (`#computeDigest`)

The source uses a cyrb53-style hash over the padded path bytes, with 32-bit
`Math.imul`, xor, and unsigned shifts.  All intermediates are represented by
the natural number with the same 32 bits (reduction mod 2^32). -/

/-- `Math.imul`, as the unsigned 32-bit representative of the product. -/
def imul32 (a b : Nat) : Nat := (a * b) % 4294967296

/-- Bitwise xor; operands below 2^32 stay below 2^32. -/
def xor32 (a b : Nat) : Nat := Nat.xor a b

/-- JavaScript `>>> k` on a value already in unsigned 32-bit form. -/
def shr32 (a k : Nat) : Nat := a >>> k

/-- One step of the digest accumulation loop over a corpus byte. -/
def digestStep (h : Nat × Nat) (v : Nat) : Nat × Nat :=
  (imul32 (xor32 h.1 v) 2654435761, imul32 (xor32 h.2 v) 1597334677)

/-- `#computeDigest(corpus)`: returns the two `Uint32Array` words. -/
def computeDigest (corpus : List Nat) : List Nat :=
  let h := corpus.foldl digestStep (0xdeadbeef, 0x41c6ce57)
  let h1 := xor32 (imul32 (xor32 h.1 (shr32 h.1 16)) 2246822507)
                  (imul32 (xor32 h.2 (shr32 h.2 13)) 3266489909)
  let h2 := xor32 (imul32 (xor32 h.2 (shr32 h.2 16)) 2246822507)
                  (imul32 (xor32 h1 (shr32 h1 13)) 3266489909)
  [h1, h2]

/-! ## Header layout constants -/

def HEADER_MAX_PATH_SIZE : Nat := 512
def HEADER_DIGEST_SIZE : Nat := 8

/-- The zero-initialized path field (`new Uint8Array(HEADER_MAX_PATH_SIZE)`). -/
def emptyPathField : List Nat := List.replicate HEADER_MAX_PATH_SIZE 0

/-- Digest of the canonical empty path field. -/
def emptyDigest : List Nat := computeDigest emptyPathField

/-! ## UTF-8 encoding (`TextEncoder.encodeInto`)

`TextEncoder.encodeInto(path, buf)` writes the UTF-8 encoding of as many
complete characters of `path` as fit into `buf`, returning the number of
bytes `written` and code points `read`.  Bytes are naturals below 256;
arithmetic (`0xC0 + n / 64` etc.) produces exactly the bit patterns of the
UTF-8 spec since the summands occupy disjoint bit ranges. -/

/-- Number of UTF-8 bytes for a scalar value. -/
def utf8Size (n : Nat) : Nat :=
  if n < 0x80 then 1
  else if n < 0x800 then 2
  else if n < 0x10000 then 3
  else 4

/-- UTF-8 bytes of one scalar value. -/
def encodeChar (n : Nat) : List Nat :=
  if n < 0x80 then [n]
  else if n < 0x800 then [0xC0 + n / 64, 0x80 + n % 64]
  else if n < 0x10000 then
    [0xE0 + n / 4096, 0x80 + n / 64 % 64, 0x80 + n % 64]
  else
    [0xF0 + n / 262144, 0x80 + n / 4096 % 64, 0x80 + n / 64 % 64, 0x80 + n % 64]

/-- UTF-8 encoding of a whole string (as code points). -/
def encodeChars (cs : List Char) : List Nat :=
  cs.flatMap (fun c => encodeChar c.toNat)

/-- Result of `TextEncoder.encodeInto`. -/
structure EncodeIntoResult where
  bytes : List Nat
  written : Nat
  read : Nat
deriving DecidableEq, Repr

/-- `TextEncoder.encodeInto` into a buffer with `space` bytes remaining:
encode characters greedily while the next character's full encoding fits. -/
def encodeInto : List Char → Nat → EncodeIntoResult
  | [], _ => ⟨[], 0, 0⟩
  | c :: cs, space =>
    let b := encodeChar c.toNat
    if b.length ≤ space then
      let r := encodeInto cs (space - b.length)
      ⟨b ++ r.bytes, b.length + r.written, 1 + r.read⟩
    else ⟨[], 0, 0⟩

/-! ## UTF-8 decoding (`TextDecoder.decode`)

A strict WHATWG-style decoder: well-formed sequences decode to their scalar
value, malformed ones produce U+FFFD and resume.  The claims only exercise it
on encoder output. -/

/-- Is `b` a UTF-8 continuation byte? -/
abbrev isCont (b : Nat) : Prop := 0x80 ≤ b ∧ b ≤ 0xBF

/-- Lower bound of the second byte for a given lead byte. -/
def contLo (lead : Nat) : Nat :=
  if lead = 0xE0 then 0xA0 else if lead = 0xF0 then 0x90 else 0x80

/-- Upper bound of the second byte for a given lead byte. -/
def contHi (lead : Nat) : Nat :=
  if lead = 0xED then 0x9F else if lead = 0xF4 then 0x8F else 0xBF

/-- The replacement character U+FFFD. -/
def replacementChar : Char := Char.ofNat 0xFFFD

/-- Decode a byte list to code points, strict with replacement on error.
The `fuel` parameter (instantiated with the list length, which every step
shortens) makes the recursion structural so that concrete headers evaluate. -/
def decodeUtf8Go : Nat → List Nat → List Char
  | _, [] => []
  | 0, _ => []
  | fuel + 1, b :: rest =>
    if b < 0x80 then Char.ofNat b :: decodeUtf8Go fuel rest
    else if 0xC2 ≤ b ∧ b ≤ 0xDF then
      match rest with
      | b2 :: r2 =>
        if isCont b2 then
          Char.ofNat ((b - 0xC0) * 64 + (b2 - 0x80)) :: decodeUtf8Go fuel r2
        else replacementChar :: decodeUtf8Go fuel (b2 :: r2)
      | [] => [replacementChar]
    else if 0xE0 ≤ b ∧ b ≤ 0xEF then
      match rest with
      | b2 :: r2 =>
        if contLo b ≤ b2 ∧ b2 ≤ contHi b ∧ isCont b2 then
          match r2 with
          | b3 :: r3 =>
            if isCont b3 then
              Char.ofNat ((b - 0xE0) * 4096 + (b2 - 0x80) * 64 + (b3 - 0x80)) ::
                decodeUtf8Go fuel r3
            else replacementChar :: decodeUtf8Go fuel (b3 :: r3)
          | [] => [replacementChar]
        else replacementChar :: decodeUtf8Go fuel (b2 :: r2)
      | [] => [replacementChar]
    else if 0xF0 ≤ b ∧ b ≤ 0xF4 then
      match rest with
      | b2 :: r2 =>
        if contLo b ≤ b2 ∧ b2 ≤ contHi b ∧ isCont b2 then
          match r2 with
          | b3 :: r3 =>
            if isCont b3 then
              match r3 with
              | b4 :: r4 =>
                if isCont b4 then
                  Char.ofNat ((b - 0xF0) * 262144 + (b2 - 0x80) * 4096 +
                      (b3 - 0x80) * 64 + (b4 - 0x80)) :: decodeUtf8Go fuel r4
                else replacementChar :: decodeUtf8Go fuel (b4 :: r4)
              | [] => [replacementChar]
            else replacementChar :: decodeUtf8Go fuel (b3 :: r3)
          | [] => [replacementChar]
        else replacementChar :: decodeUtf8Go fuel (b2 :: r2)
      | [] => [replacementChar]
    else replacementChar :: decodeUtf8Go fuel rest

/-- `TextDecoder.decode`. -/
def decodeUtf8 (l : List Nat) : List Char := decodeUtf8Go l.length l

/-- The decoder ignores any fuel beyond the list length. -/
theorem decodeUtf8Go_fuel : ∀ fuel fuel' (l : List Nat), l.length ≤ fuel →
    l.length ≤ fuel' → decodeUtf8Go fuel l = decodeUtf8Go fuel' l := by
  intro fuel
  induction fuel with
  | zero =>
    intro fuel' l h h'
    cases l with
    | nil => cases fuel' <;> rfl
    | cons b rest => simp at h
  | succ f ih =>
    intro fuel' l h h'
    cases l with
    | nil => cases fuel' <;> rfl
    | cons b rest =>
      cases fuel' with
      | zero => simp at h'
      | succ f' =>
        simp only [List.length_cons] at h h'
        show decodeUtf8Go (f + 1) (b :: rest) = decodeUtf8Go (f' + 1) (b :: rest)
        unfold decodeUtf8Go
        repeat' split
        all_goals first
          | rfl
          | (apply congrArg
             apply ih <;> simp_all <;> omega)

/-- The unfolding equation of `decodeUtf8` on a nonempty list. -/
theorem decodeUtf8_cons (b : Nat) (rest : List Nat) :
    decodeUtf8 (b :: rest) =
    (if b < 0x80 then Char.ofNat b :: decodeUtf8 rest
    else if 0xC2 ≤ b ∧ b ≤ 0xDF then
      match rest with
      | b2 :: r2 =>
        if isCont b2 then
          Char.ofNat ((b - 0xC0) * 64 + (b2 - 0x80)) :: decodeUtf8 r2
        else replacementChar :: decodeUtf8 (b2 :: r2)
      | [] => [replacementChar]
    else if 0xE0 ≤ b ∧ b ≤ 0xEF then
      match rest with
      | b2 :: r2 =>
        if contLo b ≤ b2 ∧ b2 ≤ contHi b ∧ isCont b2 then
          match r2 with
          | b3 :: r3 =>
            if isCont b3 then
              Char.ofNat ((b - 0xE0) * 4096 + (b2 - 0x80) * 64 + (b3 - 0x80)) ::
                decodeUtf8 r3
            else replacementChar :: decodeUtf8 (b3 :: r3)
          | [] => [replacementChar]
        else replacementChar :: decodeUtf8 (b2 :: r2)
      | [] => [replacementChar]
    else if 0xF0 ≤ b ∧ b ≤ 0xF4 then
      match rest with
      | b2 :: r2 =>
        if contLo b ≤ b2 ∧ b2 ≤ contHi b ∧ isCont b2 then
          match r2 with
          | b3 :: r3 =>
            if isCont b3 then
              match r3 with
              | b4 :: r4 =>
                if isCont b4 then
                  Char.ofNat ((b - 0xF0) * 262144 + (b2 - 0x80) * 4096 +
                      (b3 - 0x80) * 64 + (b4 - 0x80)) :: decodeUtf8 r4
                else replacementChar :: decodeUtf8 (b4 :: r4)
              | [] => [replacementChar]
            else replacementChar :: decodeUtf8 (b3 :: r3)
          | [] => [replacementChar]
        else replacementChar :: decodeUtf8 (b2 :: r2)
      | [] => [replacementChar]
    else replacementChar :: decodeUtf8 rest) := by
  show decodeUtf8Go (rest.length + 1) (b :: rest) = _
  conv_lhs => unfold decodeUtf8Go
  unfold decodeUtf8
  repeat' split
  all_goals first
    | rfl
    | (apply congrArg
       apply decodeUtf8Go_fuel <;> simp_all <;> omega)

/-! ### Round-trip properties of the codec -/

theorem toNat_ofNat_of_valid {n : Nat} (h : n.isValidChar) :
    (Char.ofNat n).toNat = n := by
  simp [Char.ofNat, Char.ofNatAux, h, Char.toNat, UInt32.toNat]

theorem encodeChar_length (n : Nat) : (encodeChar n).length = utf8Size n := by
  simp only [encodeChar, utf8Size]
  split
  · simp
  · split
    · simp
    · split <;> simp

/-- Decoding inverts encoding, one character at a time. -/
theorem decodeUtf8_encodeChar (c : Char) (rest : List Nat) :
    decodeUtf8 (encodeChar c.toNat ++ rest) = c :: decodeUtf8 rest := by
  have v : c.toNat.isValidChar := c.valid
  have hofn : Char.ofNat c.toNat = c := Char.ofNat_toNat c
  set n := c.toNat with hn
  by_cases h1 : n < 0x80
  · simp only [encodeChar, if_pos h1, List.cons_append, List.nil_append]
    rw [decodeUtf8_cons]
    simp only [if_pos h1, hofn]
  by_cases h2 : n < 0x800
  · simp only [encodeChar, if_neg h1, if_pos h2, List.cons_append, List.nil_append]
    rw [decodeUtf8_cons]
    simp only [if_neg (show ¬(0xC0 + n / 64 < 0x80) by omega),
      if_pos (show 0xC2 ≤ 0xC0 + n / 64 ∧ 0xC0 + n / 64 ≤ 0xDF by omega),
      if_pos (show isCont (0x80 + n % 64) by constructor <;> omega)]
    rw [show (0xC0 + n / 64 - 0xC0) * 64 + (0x80 + n % 64 - 0x80) = n by omega, hofn]
  by_cases h3 : n < 0x10000
  · have hvv : n < 0xD800 ∨ 0xDFFF < n := by
      rcases v with h | h
      · exact Or.inl h
      · exact Or.inr h.1
    simp only [encodeChar, if_neg h1, if_neg h2, if_pos h3, List.cons_append,
      List.nil_append]
    rw [decodeUtf8_cons]
    simp only [if_neg (show ¬(0xE0 + n / 4096 < 0x80) by omega),
      if_neg (show ¬(0xC2 ≤ 0xE0 + n / 4096 ∧ 0xE0 + n / 4096 ≤ 0xDF) by omega),
      if_pos (show 0xE0 ≤ 0xE0 + n / 4096 ∧ 0xE0 + n / 4096 ≤ 0xEF by omega),
      if_pos (show contLo (0xE0 + n / 4096) ≤ 0x80 + n / 64 % 64 ∧
          0x80 + n / 64 % 64 ≤ contHi (0xE0 + n / 4096) ∧ isCont (0x80 + n / 64 % 64) by
        unfold contLo contHi isCont; split_ifs <;> omega),
      if_pos (show isCont (0x80 + n % 64) by constructor <;> omega)]
    rw [show (0xE0 + n / 4096 - 0xE0) * 4096 + (0x80 + n / 64 % 64 - 0x80) * 64 +
        (0x80 + n % 64 - 0x80) = n by omega, hofn]
  · have h4 : n < 0x110000 := by
      rcases v with h | h
      · omega
      · exact h.2
    simp only [encodeChar, if_neg h1, if_neg h2, if_neg h3, List.cons_append,
      List.nil_append]
    rw [decodeUtf8_cons]
    simp only [if_neg (show ¬(0xF0 + n / 262144 < 0x80) by omega),
      if_neg (show ¬(0xC2 ≤ 0xF0 + n / 262144 ∧ 0xF0 + n / 262144 ≤ 0xDF) by omega),
      if_neg (show ¬(0xE0 ≤ 0xF0 + n / 262144 ∧ 0xF0 + n / 262144 ≤ 0xEF) by omega),
      if_pos (show 0xF0 ≤ 0xF0 + n / 262144 ∧ 0xF0 + n / 262144 ≤ 0xF4 by omega),
      if_pos (show contLo (0xF0 + n / 262144) ≤ 0x80 + n / 4096 % 64 ∧
          0x80 + n / 4096 % 64 ≤ contHi (0xF0 + n / 262144) ∧
          isCont (0x80 + n / 4096 % 64) by
        unfold contLo contHi isCont; split_ifs <;> omega),
      if_pos (show isCont (0x80 + n / 64 % 64) by constructor <;> omega),
      if_pos (show isCont (0x80 + n % 64) by constructor <;> omega)]
    rw [show (0xF0 + n / 262144 - 0xF0) * 262144 + (0x80 + n / 4096 % 64 - 0x80) * 4096 +
        (0x80 + n / 64 % 64 - 0x80) * 64 + (0x80 + n % 64 - 0x80) = n by omega, hofn]

/-- Decoding inverts the whole-string encoder. -/
theorem decodeUtf8_encodeChars (cs : List Char) (rest : List Nat) :
    decodeUtf8 (encodeChars cs ++ rest) = cs ++ decodeUtf8 rest := by
  induction cs with
  | nil => simp [encodeChars]
  | cons c t ih =>
    simp only [encodeChars, List.flatMap_cons, List.append_assoc] at ih ⊢
    rw [decodeUtf8_encodeChar, ih]
    rfl

/-- When the whole string fits, `encodeInto` writes all of it. -/
theorem encodeInto_of_fits (cs : List Char) (space : Nat)
    (h : (encodeChars cs).length ≤ space) :
    encodeInto cs space = ⟨encodeChars cs, (encodeChars cs).length, cs.length⟩ := by
  induction cs generalizing space with
  | nil => simp [encodeInto, encodeChars]
  | cons c t ih =>
    simp only [encodeChars, List.flatMap_cons] at h ⊢
    rw [encodeInto]
    simp only [List.length_append] at h ⊢
    rw [if_pos (by omega), ih (space - (encodeChar c.toNat).length)
      (by simp only [encodeChars]; omega)]
    simp [encodeChars, Nat.add_comm]

/-- UTF-8 bytes of a non-NUL character are all nonzero. -/
theorem encodeChar_ne_zero {n : Nat} (hn : n ≠ 0) : ∀ b ∈ encodeChar n, b ≠ 0 := by
  intro b hb
  simp only [encodeChar] at hb
  split at hb <;> [skip; split at hb] <;> [skip; skip; split at hb] <;>
    simp_all <;> omega

/-- The encoding of a NUL-free string contains no zero byte. -/
theorem encodeChars_ne_zero {cs : List Char} (h : ∀ c ∈ cs, c.toNat ≠ 0) :
    ∀ b ∈ encodeChars cs, b ≠ 0 := by
  intro b hb
  simp only [encodeChars, List.mem_flatMap] at hb
  obtain ⟨c, hc, hbc⟩ := hb
  exact encodeChar_ne_zero (h c hc) b hbc

/-! ## Data model

A slot's physical file is its header (path field + digest words) followed by
payload bytes.  An access handle is identified with the OPFS file name it was
opened on (they are in bijection within a session), so the pool map
`#mapAccessHandleToName` becomes an ordered list of names and the directory
becomes an association list from names to file contents. -/

/-- Contents of one OPFS file: the two header regions and the payload. -/
structure SlotFile where
  pathField : List Nat
  digest : List Nat
  data : List Nat
deriving DecidableEq, Repr

/-- A freshly created OPFS file: reads of the header regions of an empty file
leave the zero-initialized buffers untouched. -/
def newSlotFile : SlotFile := ⟨emptyPathField, [0, 0], []⟩

/-- The open flags `xOpen` inspects (`SQLITE_OPEN_CREATE`,
`SQLITE_OPEN_DELETEONCLOSE`). -/
structure OpenFlags where
  create : Bool
  deleteOnClose : Bool
deriving DecidableEq, Repr

/-- One entry of `#mapIdToFile`: the per-open file object. -/
structure VFSFile where
  path : String
  flags : OpenFlags
  accessHandle : String
deriving DecidableEq, Repr

/-- The VFS state: the three in-memory maps plus the backing directory. -/
structure VFSState where
  /-- `#mapAccessHandleToName`, as its ordered key list (values are the
  names the keys are identified with). -/
  pool : List String
  /-- `#mapPathToAccessHandle`. -/
  bindings : List (String × String)
  /-- `#mapIdToFile`. -/
  openFiles : List (Nat × VFSFile)
  /-- The backing OPFS directory: file name to contents. -/
  disk : List (String × SlotFile)
deriving DecidableEq, Repr

/-- `getSize()`: number of SQLite files (bindings). -/
def getSize (st : VFSState) : Nat := st.bindings.length

/-- `getCapacity()`: number of pool slots. -/
def getCapacity (st : VFSState) : Nat := st.pool.length

/-- Result codes the embedded methods return. -/
inductive VfsRc where
  | ok
  | cantopen
deriving DecidableEq, Repr

/-! ## Header access (`#setAssociatedPath`, `#getAssociatedPath`) -/

/-- Overwrite the header regions of the file behind handle `h`. -/
def writeHeader (st : VFSState) (h : String) (field dg : List Nat) : VFSState :=
  { st with disk :=
      match mapGet st.disk h with
      | some f => mapSet st.disk h { f with pathField := field, digest := dg }
      | none => st.disk }

/-- `accessHandle.truncate(HEADER_OFFSET_DATA)`: drop all payload. -/
def truncateData (st : VFSState) (h : String) : VFSState :=
  { st with disk :=
      match mapGet st.disk h with
      | some f => mapSet st.disk h { f with data := [] }
      | none => st.disk }

/-- `#setAssociatedPath(accessHandle, path)`.  Returns `none` on the
`path too long` throw, which happens before any header byte is written.
The final `flush()` is modelled as a no-op: `disk` always reflects the last
write. -/
def setAssociatedPath (st : VFSState) (h : String) (path : String) :
    Option VFSState :=
  let e := encodeInto path.data HEADER_MAX_PATH_SIZE
  if HEADER_MAX_PATH_SIZE ≤ e.written then
    none
  else
    let field := e.bytes ++ List.replicate (HEADER_MAX_PATH_SIZE - e.written) 0
    let dg := computeDigest field
    let st1 := writeHeader st h field dg
    let st2 :=
      if path = "" then
        let st' := truncateData st1 h
        if h ∈ st'.pool then { st' with pool := h :: st'.pool.erase h } else st'
      else st1
    let st3 :=
      if path ≠ "" then
        if h ∈ st2.pool then { st2 with pool := st2.pool.erase h ++ [h] } else st2
      else st2
    some st3

/-- Decode the null-terminated path string of a header whose digest checked
out.  `findIndex` returns `-1` when no byte is zero, and `subarray(0, -1)`
then drops only the final byte. -/
def decodeHeaderPath (f : SlotFile) : String :=
  let pathBytes :=
    match f.pathField.findIdx? (fun v => v = 0) with
    | some i => f.pathField.take i
    | none => f.pathField.take (f.pathField.length - 1)
  ⟨decodeUtf8 pathBytes⟩

/-- `#getAssociatedPath(accessHandle)`: verify the digest; decode on success,
self-repair to the empty header on mismatch. -/
def getAssociatedPath (st : VFSState) (h : String) : String × VFSState :=
  match mapGet st.disk h with
  | none => ("", st)
  | some f =>
    if f.digest = computeDigest f.pathField then
      (decodeHeaderPath f, st)
    else
      ("", (setAssociatedPath st h "").getD st)

/-! ## Logical name resolution (`#getPath`)

`#getPath` runs `new URL(name, 'file://localhost/')` and returns its
`pathname`.  We model the platform `URL` class for plain path strings (no
scheme, authority, query, fragment or percent-encoding): an absolute path is
kept, a relative one is resolved against the base path `/`, and `.` / `..`
segments are collapsed, keeping the directory slash when they end the path. -/

/-- Split a character list on `/` (the segment structure of the URL path). -/
def splitOnSlash : List Char → List (List Char)
  | [] => [[]]
  | c :: rest =>
    match splitOnSlash rest with
    | [] => if c = '/' then [[], []] else [[c]]
    | seg :: segs => if c = '/' then [] :: seg :: segs else (c :: seg) :: segs

/-- Rejoin path segments with `/`. -/
def joinSegments : List (List Char) → List Char
  | [] => []
  | [s] => s
  | s :: rest => s ++ '/' :: joinSegments rest

/-- WHATWG path-segment normalization: drop `.`, pop on `..`, keeping the
directory slash when they end the path. -/
def dotSegments : List (List Char) → List (List Char) → List (List Char)
  | stack, [] => stack.reverse
  | stack, seg :: rest =>
    if seg = ['.', '.'] then
      match rest with
      | [] => ([] :: stack.tail).reverse
      | _ => dotSegments stack.tail rest
    else if seg = ['.'] then
      match rest with
      | [] => ([] :: stack).reverse
      | _ => dotSegments stack rest
    else dotSegments (seg :: stack) rest

/-- `#getPath(name)` for string names. -/
def getPath (name : String) : String :=
  let rel := match name.data with
    | '/' :: t => t
    | l => l
  ⟨'/' :: joinSegments (dotSegments [] (splitOnSlash rel))⟩

/-! ## Engine-facing operations -/

/-- The tail of `xOpen` once an access handle is in hand: record the binding
and the per-id file object, set `pOutFlags` (not modelled) and succeed. -/
def finishOpen (st : VFSState) (path : String) (fileId : Nat)
    (flags : OpenFlags) (h : String) : VfsRc × VFSState :=
  let st := { st with bindings := mapSet st.bindings path h }
  let st := { st with openFiles := mapSet st.openFiles fileId ⟨path, flags, h⟩ }
  (VfsRc.ok, st)

/-- `xOpen`, after the name has been resolved to `path` (a non-null name
resolves through `#getPath`; a null name draws a random string). -/
def xOpen (st : VFSState) (path : String) (fileId : Nat) (flags : OpenFlags) :
    VfsRc × VFSState :=
  match mapGet st.bindings path with
  | some h => finishOpen st path fileId flags h
  | none =>
    if flags.create then
      if getSize st < getCapacity st then
        match st.pool with
        | [] => (VfsRc.cantopen, st)
        | h :: _ =>
          match setAssociatedPath st h path with
          | some st' => finishOpen st' path fileId flags h
          | none => (VfsRc.cantopen, st)
      else
        (VfsRc.cantopen, st)
    else
      (VfsRc.cantopen, st)

/-- `xOpen` on a (non-null) logical name. -/
def xOpenName (st : VFSState) (name : String) (fileId : Nat)
    (flags : OpenFlags) : VfsRc × VFSState :=
  xOpen st (getPath name) fileId flags

/-- `#deletePath(path)`: unbind and reset the slot header; no-op when the
path has no binding.  `setAssociatedPath` with the empty path cannot throw. -/
def deletePath (st : VFSState) (path : String) : VFSState :=
  match mapGet st.bindings path with
  | none => st
  | some h =>
    let st := (setAssociatedPath st h "").getD st
    { st with bindings := mapDelete st.bindings path }

/-- `xClose(fileId)`. -/
def xClose (st : VFSState) (fileId : Nat) : VfsRc × VFSState :=
  match mapGet st.openFiles fileId with
  | none => (VfsRc.ok, st)
  | some file =>
    let st := { st with openFiles := mapDelete st.openFiles fileId }
    let st := if file.flags.deleteOnClose then deletePath st file.path else st
    (VfsRc.ok, st)

/-- `xAccess(name)`: does a binding exist for the resolved path? -/
def xAccess (st : VFSState) (name : String) : Bool × VfsRc :=
  (mapHas st.bindings (getPath name), VfsRc.ok)

/-- `xDelete(name)`. -/
def xDelete (st : VFSState) (name : String) : VfsRc × VFSState :=
  (VfsRc.ok, deletePath st (getPath name))

/-! ## Capacity changes -/

/-- One iteration of the `addCapacity` loop: create the OPFS file (named by
the environment's random draw), open it, and write the empty header. -/
def initSlot (st : VFSState) (name : String) : VFSState :=
  let st := { st with disk := mapSet st.disk name newSlotFile }
  (setAssociatedPath st name "").getD st

/-- `addCapacity(n)` when all `n` slot creations succeed, the environment
drawing `names` (`names.length = n`).  New entries go to the front of the
pool; the call returns `n`. -/
def addCapacity (st : VFSState) (names : List String) : Nat × VFSState :=
  let st' := names.foldl initSlot st
  (names.length, { st' with pool := names ++ st'.pool })

/-- `addCapacity(n)` when the creation of slot `k+1` throws: the first `k`
slots (named `names`) were fully initialized on disk, but the exception
propagates before `#mapAccessHandleToName` is rebuilt, so the pool is left
untouched. -/
def addCapacityFail (st : VFSState) (names : List String) : VFSState :=
  names.foldl initSlot st

/-- `removeCapacity(n)`: walk the pool map in order, closing and deleting
slots until `n` are removed or only bound slots remain.  Falling off the loop
returns JavaScript `undefined`, modelled as `none`. -/
def removeCapacityLoop (st : VFSState) (n : Nat) :
    List String → Nat → Option Nat × VFSState
  | [], _ => (none, st)
  | h :: rest, nRemoved =>
    if nRemoved = n ∨ getSize st = getCapacity st then (some nRemoved, st)
    else
      let st' := { st with pool := st.pool.erase h, disk := mapDelete st.disk h }
      removeCapacityLoop st' n rest (nRemoved + 1)

def removeCapacity (st : VFSState) (n : Nat) : Option Nat × VFSState :=
  removeCapacityLoop st n st.pool 0

/-! ## Startup reconciliation (`#acquireAccessHandles`)

`reset()` clears the in-memory maps and rebuilds them from the directory.
Each entry is processed independently: its header is read (and repaired when
the digest fails), then the slot is routed to the bound or free group. -/

/-- Process one directory entry: the repaired-if-needed contents and the
associated path `#getAssociatedPath` returns. -/
def processSlot (e : String × SlotFile) : (String × SlotFile) × String :=
  if e.2.digest = computeDigest e.2.pathField then
    (e, decodeHeaderPath e.2)
  else
    ((e.1, ⟨emptyPathField, emptyDigest, []⟩), "")

/-- `#acquireAccessHandles()` over a directory, starting from cleared maps:
slots with a valid non-empty path register a binding and join the bound
group; all others join the free group, which precedes it in the rebuilt
pool map. -/
def reconcileDisk (disk : List (String × SlotFile)) : VFSState :=
  let processed := disk.map processSlot
  let bindings := processed.foldl
    (fun b pe => if pe.2 ≠ "" then mapSet b pe.2 pe.1.1 else b) []
  let withPath := (processed.filter (fun pe => pe.2 ≠ "")).map (fun pe => pe.1.1)
  let withoutPath := (processed.filter (fun pe => pe.2 = "")).map (fun pe => pe.1.1)
  { pool := withoutPath ++ withPath
    bindings := bindings
    openFiles := []
    disk := processed.map (fun pe => pe.1) }

/-! ## Lemmas about the `Map` model -/

section MapLemmas

variable {α β : Type} [DecidableEq α]

theorem mapGet_cons_pos {e : α × β} {t : List (α × β)} {k : α} (h : e.1 = k) :
    mapGet (e :: t) k = some e.2 := by
  simp [mapGet, List.find?_cons_of_pos, h]

theorem mapGet_cons_neg {e : α × β} {t : List (α × β)} {k : α} (h : e.1 ≠ k) :
    mapGet (e :: t) k = mapGet t k := by
  unfold mapGet
  rw [List.find?_cons_of_neg]
  simpa using h

theorem mapGet_mapSet_self (m : List (α × β)) (k : α) (v : β) :
    mapGet (mapSet m k v) k = some v := by
  induction m with
  | nil => simp [mapGet, mapSet]
  | cons e t ih =>
    by_cases h : e.1 = k
    · rw [mapSet, if_pos h, mapGet_cons_pos rfl]
    · rw [mapSet, if_neg h, mapGet_cons_neg h, ih]

theorem mapGet_mapSet_ne (m : List (α × β)) (k k' : α) (v : β) (h : k' ≠ k) :
    mapGet (mapSet m k v) k' = mapGet m k' := by
  induction m with
  | nil => simp [mapGet, mapSet, Ne.symm h]
  | cons e t ih =>
    by_cases he : e.1 = k
    · rw [mapSet, if_pos he,
        mapGet_cons_neg (show (k, v).1 ≠ k' from Ne.symm h),
        mapGet_cons_neg (show e.1 ≠ k' from by rw [he]; exact Ne.symm h)]
    · by_cases he' : e.1 = k'
      · rw [mapSet, if_neg he, mapGet_cons_pos he', mapGet_cons_pos he']
      · rw [mapSet, if_neg he, mapGet_cons_neg he', mapGet_cons_neg he', ih]

theorem mapGet_eq_some_mem {m : List (α × β)} {k : α} {v : β}
    (h : mapGet m k = some v) : (k, v) ∈ m := by
  induction m with
  | nil => simp [mapGet] at h
  | cons e t ih =>
    by_cases he : e.1 = k
    · rw [mapGet_cons_pos he] at h
      cases h
      have : e = (k, e.2) := by
        rw [← he]
      rw [← this]
      exact List.mem_cons_self e t
    · rw [mapGet_cons_neg he] at h
      exact List.mem_cons_of_mem e (ih h)

theorem mapGet_none_iff {m : List (α × β)} {k : α} :
    mapGet m k = none ↔ k ∉ m.map Prod.fst := by
  induction m with
  | nil => simp [mapGet]
  | cons e t ih =>
    by_cases he : e.1 = k
    · rw [mapGet_cons_pos he]
      simp [he]
    · rw [mapGet_cons_neg he]
      simp [ih, Ne.symm he]

theorem mapGet_isSome_iff {m : List (α × β)} {k : α} :
    (mapGet m k).isSome ↔ k ∈ m.map Prod.fst := by
  have h := mapGet_none_iff (m := m) (k := k)
  cases hm : mapGet m k <;> simp_all

theorem mapSet_of_mapGet_eq {m : List (α × β)} {k : α} {v : β}
    (h : mapGet m k = some v) : mapSet m k v = m := by
  induction m with
  | nil => simp [mapGet] at h
  | cons e t ih =>
    by_cases he : e.1 = k
    · rw [mapGet_cons_pos he] at h
      cases h
      rw [mapSet, if_pos he, ← he]
    · rw [mapGet_cons_neg he] at h
      rw [mapSet, if_neg he, ih h]

theorem mapSet_of_not_mem {m : List (α × β)} {k : α} (h : k ∉ m.map Prod.fst)
    (v : β) : mapSet m k v = m ++ [(k, v)] := by
  induction m with
  | nil => simp [mapSet]
  | cons e t ih =>
    simp only [List.map_cons, List.mem_cons] at h
    push_neg at h
    rw [mapSet, if_neg (fun hh => h.1 hh.symm), List.cons_append, ih h.2]

theorem mem_mapSet {m : List (α × β)} {k : α} {v : β} {e : α × β} :
    e ∈ mapSet m k v → e = (k, v) ∨ e ∈ m := by
  induction m with
  | nil =>
    intro h
    simp only [mapSet, List.mem_singleton] at h
    exact Or.inl h
  | cons f t ih =>
    intro h
    by_cases hf : f.1 = k
    · rw [mapSet, if_pos hf] at h
      rcases List.mem_cons.mp h with h | h
      · exact Or.inl h
      · exact Or.inr (List.mem_cons_of_mem f h)
    · rw [mapSet, if_neg hf] at h
      rcases List.mem_cons.mp h with h | h
      · exact Or.inr (by rw [h]; exact List.mem_cons_self f t)
      · rcases ih h with h' | h'
        · exact Or.inl h'
        · exact Or.inr (List.mem_cons_of_mem f h')

theorem keys_mapSet_subset {m : List (α × β)} {k : α} {v : β} :
    (mapSet m k v).map Prod.fst ⊆ k :: m.map Prod.fst := by
  intro x hx
  simp only [List.mem_map] at hx
  obtain ⟨e, he, hex⟩ := hx
  rcases mem_mapSet he with h | h
  · rw [h] at hex
    rw [← hex]
    exact List.mem_cons_self _ _
  · exact List.mem_cons_of_mem _ ((List.mem_map).mpr ⟨e, h, hex⟩)

theorem keys_mapSet_nodup {m : List (α × β)} {k : α} {v : β}
    (h : (m.map Prod.fst).Nodup) : ((mapSet m k v).map Prod.fst).Nodup := by
  induction m with
  | nil => simp [mapSet]
  | cons e t ih =>
    simp only [List.map_cons, List.nodup_cons] at h
    by_cases he : e.1 = k
    · rw [mapSet, if_pos he]
      simp only [List.map_cons, List.nodup_cons]
      exact ⟨by rw [← he]; exact h.1, h.2⟩
    · rw [mapSet, if_neg he]
      simp only [List.map_cons, List.nodup_cons]
      refine ⟨?_, ih h.2⟩
      intro hmem
      rcases (List.mem_map).mp hmem with ⟨f, hf, hfe⟩
      rcases mem_mapSet hf with h' | h'
      · rw [h'] at hfe
        exact he hfe.symm
      · exact h.1 ((List.mem_map).mpr ⟨f, h', hfe⟩)

theorem mem_mapDelete {m : List (α × β)} {k : α} {e : α × β} :
    e ∈ mapDelete m k ↔ e ∈ m ∧ e.1 ≠ k := by
  simp [mapDelete, List.mem_filter]

theorem mapGet_mapDelete_self (m : List (α × β)) (k : α) :
    mapGet (mapDelete m k) k = none := by
  rw [mapGet_none_iff]
  intro h
  rcases (List.mem_map).mp h with ⟨e, he, hek⟩
  exact (mem_mapDelete.mp he).2 hek

theorem mapGet_mapDelete_ne (m : List (α × β)) (k k' : α) (h : k' ≠ k) :
    mapGet (mapDelete m k) k' = mapGet m k' := by
  induction m with
  | nil => simp [mapDelete]
  | cons e t ih =>
    by_cases he : e.1 = k
    · rw [show mapDelete (e :: t) k = mapDelete t k by
        simp [mapDelete, List.filter_cons, he], ih, mapGet_cons_neg (by rw [he]; exact Ne.symm h)]
    · rw [show mapDelete (e :: t) k = e :: mapDelete t k by
        simp [mapDelete, List.filter_cons, he]]
      by_cases he' : e.1 = k'
      · rw [mapGet_cons_pos he', mapGet_cons_pos he']
      · rw [mapGet_cons_neg he', mapGet_cons_neg he', ih]

theorem keys_mapDelete_nodup {m : List (α × β)} {k : α}
    (h : (m.map Prod.fst).Nodup) : ((mapDelete m k).map Prod.fst).Nodup := by
  have : (mapDelete m k).map Prod.fst |>.Sublist (m.map Prod.fst) :=
    (List.filter_sublist m).map Prod.fst
  exact this.nodup h

end MapLemmas

/-! ## Characterizing header reads and writes -/

theorem mapSet_mapSet {α β : Type} [DecidableEq α] (m : List (α × β)) (k : α)
    (v v' : β) : mapSet (mapSet m k v) k v' = mapSet m k v' := by
  induction m with
  | nil => simp [mapSet]
  | cons e t ih =>
    by_cases he : e.1 = k
    · simp [mapSet, he]
    · simp [mapSet, he, ih]

theorem findIdx?_first_zero (bytes junk : List Nat) (h : ∀ b ∈ bytes, b ≠ 0) :
    (bytes ++ 0 :: junk).findIdx? (fun v => v = 0) = some bytes.length := by
  induction bytes with
  | nil => simp [List.findIdx?_cons]
  | cons b t ih =>
    have hb : b ≠ 0 := h b (List.mem_cons_self b t)
    rw [List.cons_append, List.findIdx?_cons, if_neg (by simpa using hb),
      List.findIdx?_succ, ih (fun x hx => h x (List.mem_cons_of_mem b hx))]
    simp

/-- Decoding any nonempty byte list yields at least one character. -/
theorem decodeUtf8_ne_nil (b : Nat) (rest : List Nat) :
    decodeUtf8 (b :: rest) ≠ [] := by
  rw [decodeUtf8_cons]
  repeat' split
  all_goals simp_all

/-- A header whose path field starts with a zero byte denotes the empty
path. -/
theorem decodeHeaderPath_of_head_zero (f : SlotFile) (t : List Nat)
    (hf : f.pathField = 0 :: t) : decodeHeaderPath f = "" := by
  unfold decodeHeaderPath
  rw [hf]
  simp [List.findIdx?_cons]
  rw [show decodeUtf8 [] = [] from rfl]

/-- A header whose path field starts with a nonzero byte and has at least two
bytes denotes a nonempty path. -/
theorem decodeHeaderPath_ne_empty (f : SlotFile) (b : Nat) (t : List Nat)
    (hf : f.pathField = b :: t) (hb : b ≠ 0) (ht : t ≠ []) :
    decodeHeaderPath f ≠ "" := by
  unfold decodeHeaderPath
  rw [hf]
  rw [List.findIdx?_cons, if_neg (by simpa using hb), List.findIdx?_succ]
  cases hidx : List.findIdx? (fun v => decide (v = 0)) t with
  | some i =>
    simp only [Option.map_some]
    intro hcontra
    have : decodeUtf8 (b :: t.take i) = [] := by
      have := congrArg String.data hcontra
      simpa [List.take_succ_cons] using this
    exact decodeUtf8_ne_nil _ _ this
  | none =>
    simp only [Option.map_none]
    intro hcontra
    have hlen : (b :: t).length - 1 = t.length := by simp
    have : decodeUtf8 ((b :: t).take ((b :: t).length - 1)) = [] := by
      have := congrArg String.data hcontra
      simpa using this
    rw [hlen, List.take_cons] at this
    · exact decodeUtf8_ne_nil _ _ this
    · exact List.length_pos.mpr ht

/-- The canonical empty header decodes to the empty path. -/
theorem decodeHeaderPath_emptyField (f : SlotFile)
    (hf : f.pathField = emptyPathField) : decodeHeaderPath f = "" := by
  apply decodeHeaderPath_of_head_zero f (List.replicate 511 0)
  rw [hf]
  rfl

/-! ### `encodeInto` structure -/

theorem encodeChar_length_le (n : Nat) : (encodeChar n).length ≤ 4 := by
  simp only [encodeChar]
  repeat' split
  all_goals simp

theorem encodeInto_bytes_written (cs : List Char) (space : Nat) :
    (encodeInto cs space).bytes =
      encodeChars (cs.take (encodeInto cs space).read) ∧
    (encodeInto cs space).written = (encodeInto cs space).bytes.length := by
  induction cs generalizing space with
  | nil => simp [encodeInto, encodeChars]
  | cons c t ih =>
    rw [encodeInto]
    split
    · obtain ⟨ihb, ihw⟩ := ih (space - (encodeChar c.toNat).length)
      dsimp only
      constructor
      · rw [Nat.add_comm 1, List.take_succ_cons]
        simp only [encodeChars, List.flatMap_cons] at ihb ⊢
        rw [ihb]
      · simp [ihw]
    · simp [encodeChars]

theorem encodeInto_read_pos (c : Char) (t : List Char) (space : Nat)
    (h : 4 ≤ space) : 1 ≤ (encodeInto (c :: t) space).read := by
  rw [encodeInto]
  rw [if_pos (le_trans (encodeChar_length_le c.toNat) h)]
  simp

/-- The padded path field `#setAssociatedPath` writes for `path`. -/
def encodedField (path : String) : List Nat :=
  (encodeInto path.data HEADER_MAX_PATH_SIZE).bytes ++
    List.replicate
      (HEADER_MAX_PATH_SIZE - (encodeInto path.data HEADER_MAX_PATH_SIZE).written) 0

/-- The file contents after rebinding `f` to `path`. -/
def boundFile (f : SlotFile) (path : String) : SlotFile :=
  { f with pathField := encodedField path, digest := computeDigest (encodedField path) }

/-- The file contents after `#setAssociatedPath(h, '')`. -/
def freedFile : SlotFile := ⟨emptyPathField, emptyDigest, []⟩

theorem setAssociatedPath_empty_eq (st : VFSState) (h : String) (f : SlotFile)
    (hf : mapGet st.disk h = some f) :
    setAssociatedPath st h "" = some
      { pool := if h ∈ st.pool then h :: st.pool.erase h else st.pool
        bindings := st.bindings
        openFiles := st.openFiles
        disk := mapSet st.disk h freedFile } := by
  unfold setAssociatedPath
  have hdata : ("" : String).data = [] := rfl
  rw [hdata]
  simp only [encodeInto, HEADER_MAX_PATH_SIZE]
  rw [if_neg (by omega)]
  simp only [writeHeader, truncateData, hf, List.nil_append, Nat.sub_zero]
  rw [mapGet_mapSet_self]
  simp only [mapSet_mapSet, if_pos rfl]
  rw [if_neg (show ¬("" : String) ≠ "" from by simp)]
  simp only [if_true]
  by_cases hm : h ∈ st.pool
  · rw [if_pos hm, if_pos hm]
    rfl
  · rw [if_neg hm, if_neg hm]
    rfl

theorem setAssociatedPath_some_eq (st : VFSState) (h path : String) (f : SlotFile)
    (hf : mapGet st.disk h = some f) (hp : path ≠ "")
    (hw : (encodeInto path.data HEADER_MAX_PATH_SIZE).written < HEADER_MAX_PATH_SIZE) :
    setAssociatedPath st h path = some
      { pool := if h ∈ st.pool then st.pool.erase h ++ [h] else st.pool
        bindings := st.bindings
        openFiles := st.openFiles
        disk := mapSet st.disk h (boundFile f path) } := by
  unfold setAssociatedPath
  rw [if_neg (by omega)]
  simp only [writeHeader, hf]
  rw [if_neg hp, if_pos hp]
  simp only [boundFile, encodedField]
  by_cases hm : h ∈ st.pool
  · rw [if_pos hm, if_pos hm]
  · rw [if_neg hm, if_neg hm]

theorem setAssociatedPath_fail (st : VFSState) (h path : String)
    (hw : HEADER_MAX_PATH_SIZE ≤ (encodeInto path.data HEADER_MAX_PATH_SIZE).written) :
    setAssociatedPath st h path = none := by
  unfold setAssociatedPath
  rw [if_pos hw]

/-! ## Reading a freshly written bound header -/

theorem encodeInto_cons (c : Char) (cs : List Char) (space : Nat)
    (h : (encodeChar c.toNat).length ≤ space) :
    encodeInto (c :: cs) space =
      ⟨encodeChar c.toNat ++ (encodeInto cs (space - (encodeChar c.toNat).length)).bytes,
       (encodeChar c.toNat).length +
         (encodeInto cs (space - (encodeChar c.toNat).length)).written,
       1 + (encodeInto cs (space - (encodeChar c.toNat).length)).read⟩ := by
  rw [encodeInto, if_pos h]

/-- Reading back a header freshly written for a NUL-free path returns exactly
the encoded prefix of that path. -/
theorem decodeHeaderPath_boundFile (f : SlotFile) (p : String)
    (hnz : ∀ c ∈ p.data, c.toNat ≠ 0)
    (hw : (encodeInto p.data HEADER_MAX_PATH_SIZE).written < HEADER_MAX_PATH_SIZE) :
    decodeHeaderPath (boundFile f p) =
      ⟨p.data.take (encodeInto p.data HEADER_MAX_PATH_SIZE).read⟩ := by
  obtain ⟨hb, hwl⟩ := encodeInto_bytes_written p.data HEADER_MAX_PATH_SIZE
  have hnz' : ∀ b ∈ (encodeInto p.data HEADER_MAX_PATH_SIZE).bytes, b ≠ 0 := by
    rw [hb]
    exact encodeChars_ne_zero (fun c hc => hnz c (List.mem_of_mem_take hc))
  have hpad : HEADER_MAX_PATH_SIZE - (encodeInto p.data HEADER_MAX_PATH_SIZE).written =
      (HEADER_MAX_PATH_SIZE - (encodeInto p.data HEADER_MAX_PATH_SIZE).written - 1) + 1 := by
    omega
  have hdecode : decodeUtf8 (encodeChars (p.data.take
      (encodeInto p.data HEADER_MAX_PATH_SIZE).read)) =
      p.data.take (encodeInto p.data HEADER_MAX_PATH_SIZE).read := by
    have h0 : decodeUtf8 [] = [] := rfl
    have := decodeUtf8_encodeChars
      (p.data.take (encodeInto p.data HEADER_MAX_PATH_SIZE).read) []
    simpa [h0] using this
  unfold decodeHeaderPath boundFile encodedField
  dsimp only
  rw [hpad, List.replicate_succ]
  rw [findIdx?_first_zero _ _ hnz']
  dsimp only
  rw [← hwl, hwl, List.take_left]
  rw [hb, hdecode]

/-! ## Properties of resolved paths -/

/-- A resolved logical path is never empty. -/
theorem getPath_ne_empty (name : String) : getPath name ≠ "" := by
  intro h
  have := congrArg String.data h
  simp only [getPath] at this
  exact List.noConfusion this

/-- A resolved logical path starts with the separator character. -/
theorem getPath_data (name : String) : ∃ t, (getPath name).data = '/' :: t := by
  exact ⟨_, rfl⟩

/-! ## The pool invariant -/

/-- Is `h` the handle of some current binding (an associated slot)? -/
def isBound (st : VFSState) (h : String) : Prop :=
  ∃ e ∈ st.bindings, e.2 = h

instance (st : VFSState) (h : String) : Decidable (isBound st h) := by
  unfold isBound
  infer_instance

/-- The claimed pool invariant: bindings are functional and injective with
nonempty paths, every bound slot is pooled, free slots precede bound slots in
the pool order, and on-disk headers agree with the free/bound split (a free
slot's path field denotes the empty path, a bound slot's a nonempty one). -/
structure Inv (st : VFSState) : Prop where
  poolNodup : st.pool.Nodup
  bindKeysNodup : (st.bindings.map Prod.fst).Nodup
  bindInj : ∀ e1 ∈ st.bindings, ∀ e2 ∈ st.bindings, e1.2 = e2.2 → e1.1 = e2.1
  bindPool : ∀ e ∈ st.bindings, e.2 ∈ st.pool
  bindNonempty : ∀ e ∈ st.bindings, e.1 ≠ ""
  partition : ∃ fr bd, st.pool = fr ++ bd ∧
    (∀ h ∈ fr, ¬ isBound st h) ∧ (∀ h ∈ bd, isBound st h)
  diskKeysNodup : (st.disk.map Prod.fst).Nodup
  poolDisk : ∀ h ∈ st.pool, ∃ f, mapGet st.disk h = some f
  freeHeader : ∀ h ∈ st.pool, ¬ isBound st h →
    ∀ f, mapGet st.disk h = some f → decodeHeaderPath f = ""
  boundHeader : ∀ h ∈ st.pool, isBound st h →
    ∀ f, mapGet st.disk h = some f → decodeHeaderPath f ≠ ""

/-- With unique keys, membership determines lookup. -/
theorem mapGet_of_mem_nodup {α β : Type} [DecidableEq α] {m : List (α × β)}
    (hn : (m.map Prod.fst).Nodup) {e : α × β} (he : e ∈ m) :
    mapGet m e.1 = some e.2 := by
  induction m with
  | nil => simp at he
  | cons f t ih =>
    simp only [List.map_cons, List.nodup_cons] at hn
    rcases List.mem_cons.mp he with h | h
    · rw [h, mapGet_cons_pos rfl]
    · have hne : f.1 ≠ e.1 := by
        intro hfe
        exact hn.1 (hfe ▸ (List.mem_map).mpr ⟨e, h, rfl⟩)
      rw [mapGet_cons_neg hne, ih hn.2 h]

/-- Under the invariant, binding handles are pairwise distinct. -/
theorem bindValuesNodup {st : VFSState} (hi : Inv st) :
    (st.bindings.map Prod.snd).Nodup := by
  refine List.Nodup.map_on ?_ (List.Nodup.of_map Prod.fst hi.bindKeysNodup)
  intro e1 h1 e2 h2 hv
  have hk := hi.bindInj e1 h1 e2 h2 hv
  have g1 := mapGet_of_mem_nodup hi.bindKeysNodup h1
  have g2 := mapGet_of_mem_nodup hi.bindKeysNodup h2
  rw [hk] at g1
  rw [g1] at g2
  have hv2 : e1.2 = e2.2 := by
    injection g2
  exact Prod.ext hk hv2

/-- Under the invariant the bound partition is exactly the binding handles,
so the number of bindings equals the number of bound slots. -/
theorem size_lt_capacity_iff {st : VFSState} (hi : Inv st) :
    getSize st < getCapacity st ↔ ∃ h ∈ st.pool, ¬ isBound st h := by
  obtain ⟨fr, bd, hpool, hfr, hbd⟩ := hi.partition
  have hnodup := hi.poolNodup
  rw [hpool] at hnodup
  have hbdnodup : bd.Nodup := hnodup.of_append_right
  have hvnodup := bindValuesNodup hi
  -- bd and the binding values are the same set
  have hsub1 : bd ⊆ st.bindings.map Prod.snd := by
    intro h hh
    obtain ⟨e, he, hev⟩ := hbd h hh
    exact (List.mem_map).mpr ⟨e, he, hev⟩
  have hsub2 : st.bindings.map Prod.snd ⊆ bd := by
    intro h hh
    obtain ⟨e, he, hev⟩ := (List.mem_map).mp hh
    have hp : h ∈ st.pool := hev ▸ hi.bindPool e he
    rw [hpool] at hp
    rcases List.mem_append.mp hp with hin | hin
    · exact absurd ⟨e, he, hev⟩ (hfr h hin)
    · exact hin
  have hcard : bd.length = st.bindings.length := by
    have h1 : bd.toFinset = (st.bindings.map Prod.snd).toFinset := by
      apply Finset.Subset.antisymm
      · intro x hx
        rw [List.mem_toFinset] at hx ⊢
        exact hsub1 hx
      · intro x hx
        rw [List.mem_toFinset] at hx ⊢
        exact hsub2 hx
    have := congrArg Finset.card h1
    rw [List.toFinset_card_of_nodup hbdnodup,
      List.toFinset_card_of_nodup hvnodup] at this
    simpa using this
  unfold getSize getCapacity
  rw [hpool, List.length_append, ← hcard]
  constructor
  · intro hlt
    have : fr ≠ [] := by
      intro h0
      rw [h0] at hlt
      simp at hlt
    obtain ⟨h, hh⟩ := List.exists_mem_of_ne_nil fr this
    exact ⟨h, List.mem_append.mpr (Or.inl hh), hfr h hh⟩
  · intro ⟨h, hp, hnb⟩
    rcases List.mem_append.mp hp with hin | hin
    · have : 1 ≤ fr.length := List.length_pos.mpr (List.ne_nil_of_mem hin)
      omega
    · exact absurd (hbd h hin) hnb

/-! ## Invariant preservation: delete -/

theorem deletePath_eq_of_unbound {st : VFSState} {p : String}
    (hg : mapGet st.bindings p = none) : deletePath st p = st := by
  unfold deletePath
  rw [hg]

theorem deletePath_eq_of_bound {st : VFSState} {p h : String} {f : SlotFile}
    (hg : mapGet st.bindings p = some h) (hf : mapGet st.disk h = some f)
    (hpool : h ∈ st.pool) :
    deletePath st p =
      { pool := h :: st.pool.erase h
        bindings := mapDelete st.bindings p
        openFiles := st.openFiles
        disk := mapSet st.disk h freedFile } := by
  unfold deletePath
  rw [hg]
  dsimp only
  rw [setAssociatedPath_empty_eq st h f hf]
  simp only [Option.getD_some, if_pos hpool]

/-- An entry of the bindings map whose key is not `p` cannot carry the handle
bound to `p`. -/
theorem value_ne_of_key_ne {st : VFSState} (hi : Inv st) {p h : String}
    (hg : mapGet st.bindings p = some h) {e : String × String}
    (he : e ∈ st.bindings) (hk : e.1 ≠ p) : e.2 ≠ h := by
  intro hv
  exact hk (hi.bindInj e he (p, h) (mapGet_eq_some_mem hg) hv)

theorem deletePath_inv {st : VFSState} (hi : Inv st) (p : String) :
    Inv (deletePath st p) := by
  cases hg : mapGet st.bindings p with
  | none => rw [deletePath_eq_of_unbound hg]; exact hi
  | some h =>
    have hmem : (p, h) ∈ st.bindings := mapGet_eq_some_mem hg
    have hpool : h ∈ st.pool := hi.bindPool _ hmem
    obtain ⟨f, hf⟩ := hi.poolDisk h hpool
    rw [deletePath_eq_of_bound hg hf hpool]
    set st' : VFSState :=
      { pool := h :: st.pool.erase h
        bindings := mapDelete st.bindings p
        openFiles := st.openFiles
        disk := mapSet st.disk h freedFile } with hst'
    -- the new handle h is free, everything else keeps its status
    have hBound' : ∀ x, isBound st' x ↔ isBound st x ∧ x ≠ h := by
      intro x
      constructor
      · rintro ⟨e, he, hex⟩
        obtain ⟨heb, hek⟩ := mem_mapDelete.mp he
        exact ⟨⟨e, heb, hex⟩, hex ▸ value_ne_of_key_ne hi hg heb hek⟩
      · rintro ⟨⟨e, he, hex⟩, hxh⟩
        have hek : e.1 ≠ p := by
          intro hep
          have := mapGet_of_mem_nodup hi.bindKeysNodup he
          rw [hep, hg] at this
          injection this with hv
          exact hxh (hex ▸ hv).symm
        exact ⟨e, mem_mapDelete.mpr ⟨he, hek⟩, hex⟩
    have hnotbound_h : ¬ isBound st' h := by
      intro hb
      exact ((hBound' h).mp hb).2 rfl
    have hmem_pool' : ∀ x, x ∈ st'.pool ↔ x ∈ st.pool := by
      intro x
      simp only [hst', List.mem_cons]
      constructor
      · rintro (rfl | hx)
        · exact hpool
        · exact (hi.poolNodup.mem_erase_iff.mp hx).2
      · intro hx
        by_cases hxh : x = h
        · exact Or.inl hxh
        · exact Or.inr (hi.poolNodup.mem_erase_iff.mpr ⟨hxh, hx⟩)
    constructor
    -- poolNodup
    · refine List.Nodup.cons ?_ (hi.poolNodup.erase h)
      intro hcontra
      exact (hi.poolNodup.mem_erase_iff.mp hcontra).1 rfl
    -- bindKeysNodup
    · exact keys_mapDelete_nodup hi.bindKeysNodup
    -- bindInj
    · intro e1 h1 e2 h2 hv
      exact hi.bindInj e1 (mem_mapDelete.mp h1).1 e2 (mem_mapDelete.mp h2).1 hv
    -- bindPool
    · intro e he
      exact (hmem_pool' e.2).mpr (hi.bindPool e (mem_mapDelete.mp he).1)
    -- bindNonempty
    · intro e he
      exact hi.bindNonempty e (mem_mapDelete.mp he).1
    -- partition
    · obtain ⟨fr, bd, hsp, hfr, hbd⟩ := hi.partition
      have hhfr : h ∉ fr := fun hin => hfr h hin ⟨(p, h), hmem, rfl⟩
      have hhbd : h ∈ bd := by
        have := hpool
        rw [hsp] at this
        rcases List.mem_append.mp this with hin | hin
        · exact absurd hin hhfr
        · exact hin
      refine ⟨h :: fr, bd.erase h, ?_, ?_, ?_⟩
      · show h :: st.pool.erase h = (h :: fr) ++ bd.erase h
        rw [hsp, List.erase_append_right _ hhfr, List.cons_append]
      · intro x hx
        rcases List.mem_cons.mp hx with rfl | hx
        · exact hnotbound_h
        · intro hb
          exact hfr x hx ((hBound' x).mp hb).1
      · intro x hx
        have hbdnodup : bd.Nodup := by
          have := hi.poolNodup
          rw [hsp] at this
          exact this.of_append_right
        obtain ⟨hxh, hxbd⟩ := hbdnodup.mem_erase_iff.mp hx
        exact (hBound' x).mpr ⟨hbd x hxbd, hxh⟩
    -- diskKeysNodup
    · exact keys_mapSet_nodup hi.diskKeysNodup
    -- poolDisk
    · intro x hx
      by_cases hxh : x = h
      · subst hxh
        exact ⟨freedFile, mapGet_mapSet_self _ _ _⟩
      · obtain ⟨g, hgx⟩ := hi.poolDisk x ((hmem_pool' x).mp hx)
        exact ⟨g, by rw [mapGet_mapSet_ne _ _ _ _ hxh]; exact hgx⟩
    -- freeHeader
    · intro x hx hnb g hgx
      by_cases hxh : x = h
      · subst hxh
        rw [mapGet_mapSet_self] at hgx
        injection hgx with hgx
        rw [← hgx]
        exact decodeHeaderPath_emptyField freedFile rfl
      · rw [mapGet_mapSet_ne _ _ _ _ hxh] at hgx
        refine hi.freeHeader x ((hmem_pool' x).mp hx) ?_ g hgx
        intro hb
        exact hnb ((hBound' x).mpr ⟨hb, hxh⟩)
    -- boundHeader
    · intro x hx hb g hgx
      have hxh : x ≠ h := ((hBound' x).mp hb).2
      rw [mapGet_mapSet_ne _ _ _ _ hxh] at hgx
      exact hi.boundHeader x ((hmem_pool' x).mp hx) ((hBound' x).mp hb).1 g hgx

/-! ## Invariant preservation: close -/

/-- The invariant does not depend on the open-handle map. -/
theorem inv_set_openFiles {st : VFSState} (hi : Inv st)
    (ofs : List (Nat × VFSFile)) : Inv { st with openFiles := ofs } := by
  obtain ⟨h1, h2, h3, h4, h5, h6, h7, h8, h9, h10⟩ := hi
  exact ⟨h1, h2, h3, h4, h5, h6, h7, h8, h9, h10⟩

theorem xClose_inv {st : VFSState} (hi : Inv st) (fid : Nat) :
    Inv (xClose st fid).2 := by
  unfold xClose
  cases hg : mapGet st.openFiles fid with
  | none => exact hi
  | some file =>
    dsimp only
    split
    · exact deletePath_inv (inv_set_openFiles hi _) file.path
    · exact inv_set_openFiles hi _

/-! ## Invariant preservation: open -/

/-- The path field written for a path starting with `/` begins with the
nonzero byte 47 and has a nonempty tail. -/
theorem encodedField_slash (p : String) (t0 : List Char) (hp : p.data = '/' :: t0)
    (hw : (encodeInto p.data HEADER_MAX_PATH_SIZE).written < HEADER_MAX_PATH_SIZE) :
    ∃ t, encodedField p = 47 :: t ∧ t ≠ [] := by
  have hc : encodeChar ('/' : Char).toNat = [47] := rfl
  have hcons : encodeInto p.data HEADER_MAX_PATH_SIZE =
      ⟨47 :: (encodeInto t0 (HEADER_MAX_PATH_SIZE - 1)).bytes,
       1 + (encodeInto t0 (HEADER_MAX_PATH_SIZE - 1)).written,
       1 + (encodeInto t0 (HEADER_MAX_PATH_SIZE - 1)).read⟩ := by
    rw [hp, encodeInto_cons '/' t0 HEADER_MAX_PATH_SIZE
      (by rw [hc]; simp [HEADER_MAX_PATH_SIZE]), hc]
    rfl
  unfold encodedField
  rw [hcons] at hw ⊢
  dsimp only at hw ⊢
  refine ⟨(encodeInto t0 (HEADER_MAX_PATH_SIZE - 1)).bytes ++
    List.replicate (HEADER_MAX_PATH_SIZE -
      (1 + (encodeInto t0 (HEADER_MAX_PATH_SIZE - 1)).written)) 0,
    List.cons_append _ _ _, ?_⟩
  intro hcontra
  have hlen : (HEADER_MAX_PATH_SIZE -
      (1 + (encodeInto t0 (HEADER_MAX_PATH_SIZE - 1)).written)) = 0 := by
    rcases List.append_eq_nil.mp hcontra with ⟨_, hrep⟩
    simpa using congrArg List.length hrep
  simp only [HEADER_MAX_PATH_SIZE] at hlen hw
  omega

/-- If `setAssociatedPath` succeeds, the encoding fit. -/
theorem setAssociatedPath_some_written {st : VFSState} {h p : String} {st1 : VFSState}
    (hs : setAssociatedPath st h p = some st1) :
    (encodeInto p.data HEADER_MAX_PATH_SIZE).written < HEADER_MAX_PATH_SIZE := by
  by_contra hcontra
  rw [setAssociatedPath_fail st h p (by omega)] at hs
  exact Option.noConfusion hs

theorem xOpen_inv {st : VFSState} (hi : Inv st) (p : String)
    (hp : ∃ t0, p.data = '/' :: t0) (fid : Nat) (fl : OpenFlags) :
    Inv (xOpen st p fid fl).2 := by
  obtain ⟨t0, hpd⟩ := hp
  have hpne : p ≠ "" := by
    intro h0
    rw [h0] at hpd
    exact List.noConfusion hpd
  unfold xOpen
  cases hb : mapGet st.bindings p with
  | some h =>
    unfold finishOpen
    dsimp only
    rw [mapSet_of_mapGet_eq hb]
    exact inv_set_openFiles hi _
  | none =>
    dsimp only
    split
    case isFalse => exact hi
    case isTrue =>
      split
      case isFalse => exact hi
      case isTrue hlt =>
        cases hpool : st.pool with
        | nil => exact hi
        | cons h rest =>
          dsimp only
          cases hset : setAssociatedPath st h p with
          | none => exact hi
          | some st1 =>
            -- h is the first slot, hence free under the invariant
            have hhead : h ∈ st.pool := by rw [hpool]; exact List.mem_cons_self h rest
            obtain ⟨f, hf⟩ := hi.poolDisk h hhead
            have hw := setAssociatedPath_some_written hset
            rw [setAssociatedPath_some_eq st h p f hf hpne hw] at hset
            injection hset with hset
            obtain ⟨fr, bd, hsp, hfr, hbd⟩ := hi.partition
            have hfree : ∃ x ∈ st.pool, ¬ isBound st x :=
              (size_lt_capacity_iff hi).mp hlt
            have hfrne : fr ≠ [] := by
              intro h0
              obtain ⟨x, hx, hxf⟩ := hfree
              rw [hsp, h0, List.nil_append] at hx
              exact hxf (hbd x hx)
            obtain ⟨f0, fr', hfr0⟩ := List.exists_cons_of_ne_nil hfrne
            have hpool_eq : st.pool = f0 :: (fr' ++ bd) := by
              rw [hsp, hfr0, List.cons_append]
            rw [hpool] at hpool_eq
            have hh1 : h = f0 := by
              injection hpool_eq with h1 h2
            subst hh1
            have hrest : rest = fr' ++ bd := by
              injection hpool_eq with h1 h2
            have hhf : h ∈ fr := by rw [hfr0]; exact List.mem_cons_self _ _
            have hfreeh : ¬ isBound st h := hfr h hhf
            have hrestpool : st.pool.erase h = rest := by
              rw [hpool]
              exact List.erase_cons_head h rest
            -- the successor state after finishOpen
            subst hset
            unfold finishOpen
            dsimp only
            rw [if_pos hhead, hrestpool]
            have hbindings : mapSet st.bindings p h = st.bindings ++ [(p, h)] :=
              mapSet_of_not_mem (by rw [← mapGet_none_iff]; exact hb) h
            rw [hbindings]
            set st2 : VFSState :=
              { pool := rest ++ [h]
                bindings := st.bindings ++ [(p, h)]
                openFiles := mapSet st.openFiles fid ⟨p, fl, h⟩
                disk := mapSet st.disk h (boundFile f p) } with hst2
            have hBound2 : ∀ x, isBound st2 x ↔ isBound st x ∨ x = h := by
              intro x
              constructor
              · rintro ⟨e, he, hex⟩
                rcases List.mem_append.mp he with he | he
                · exact Or.inl ⟨e, he, hex⟩
                · right
                  rw [List.mem_singleton] at he
                  rw [he] at hex
                  exact hex.symm
              · rintro (⟨e, he, hex⟩ | rfl)
                · exact ⟨e, List.mem_append.mpr (Or.inl he), hex⟩
                · exact ⟨(p, x), List.mem_append.mpr (Or.inr (List.mem_singleton.mpr rfl)), rfl⟩
            have hnodup : st.pool.Nodup := hi.poolNodup
            rw [hpool] at hnodup
            have hhrest : h ∉ rest := (List.nodup_cons.mp hnodup).1
            have hrestnodup : rest.Nodup := (List.nodup_cons.mp hnodup).2
            constructor
            -- poolNodup
            · refine List.Nodup.append hrestnodup (List.nodup_singleton h) ?_
              intro x hx hx1
              rw [List.mem_singleton] at hx1
              exact hhrest (hx1 ▸ hx)
            -- bindKeysNodup
            · rw [List.map_append]
              refine List.Nodup.append hi.bindKeysNodup (by simp) ?_
              intro x hx hx1
              simp only [List.map_cons, List.map_nil, List.mem_singleton] at hx1
              rw [hx1] at hx
              exact mapGet_none_iff.mp hb hx
            -- bindInj
            · intro e1 h1 e2 h2 hv
              rcases List.mem_append.mp h1 with h1 | h1 <;>
                rcases List.mem_append.mp h2 with h2 | h2
              · exact hi.bindInj e1 h1 e2 h2 hv
              · rw [List.mem_singleton] at h2
                exfalso
                refine hfreeh ⟨e1, h1, ?_⟩
                rw [hv, h2]
              · rw [List.mem_singleton] at h1
                exfalso
                refine hfreeh ⟨e2, h2, ?_⟩
                rw [← hv, h1]
              · rw [List.mem_singleton] at h1 h2
                rw [h1, h2]
            -- bindPool
            · intro e he
              rcases List.mem_append.mp he with he | he
              · have hep : e.2 ∈ st.pool := hi.bindPool e he
                rw [hpool] at hep
                rcases List.mem_cons.mp hep with heh | heh
                · exact absurd ⟨e, he, heh⟩ hfreeh
                · exact List.mem_append.mpr (Or.inl heh)
              · rw [List.mem_singleton] at he
                rw [he]
                exact List.mem_append.mpr (Or.inr (List.mem_singleton.mpr rfl))
            -- bindNonempty
            · intro e he
              rcases List.mem_append.mp he with he | he
              · exact hi.bindNonempty e he
              · rw [List.mem_singleton] at he
                rw [he]
                exact hpne
            -- partition
            · refine ⟨fr', bd ++ [h], ?_, ?_, ?_⟩
              · show rest ++ [h] = fr' ++ (bd ++ [h])
                rw [hrest, List.append_assoc]
              · intro x hx hbx
                have hxfr : x ∈ fr := by
                  rw [hfr0]
                  exact List.mem_cons_of_mem _ hx
                rcases (hBound2 x).mp hbx with hbx | rfl
                · exact hfr x hxfr hbx
                · exact hhrest (by rw [hrest]; exact List.mem_append.mpr (Or.inl hx))
              · intro x hx
                rcases List.mem_append.mp hx with hx | hx
                · exact (hBound2 x).mpr (Or.inl (hbd x hx))
                · rw [List.mem_singleton] at hx
                  exact (hBound2 x).mpr (Or.inr hx)
            -- diskKeysNodup
            · exact keys_mapSet_nodup hi.diskKeysNodup
            -- poolDisk
            · intro x hx
              by_cases hxh : x = h
              · subst hxh
                exact ⟨boundFile f p, mapGet_mapSet_self _ _ _⟩
              · have hxp : x ∈ st.pool := by
                  rw [hpool]
                  rcases List.mem_append.mp hx with hx | hx
                  · exact List.mem_cons_of_mem h hx
                  · rw [List.mem_singleton] at hx
                    exact absurd hx hxh
                obtain ⟨g, hg⟩ := hi.poolDisk x hxp
                exact ⟨g, by rw [mapGet_mapSet_ne _ _ _ _ hxh]; exact hg⟩
            -- freeHeader
            · intro x hx hnb g hg
              have hxh : x ≠ h := by
                intro hxe
                exact hnb ((hBound2 x).mpr (Or.inr hxe))
              rw [mapGet_mapSet_ne _ _ _ _ hxh] at hg
              have hxp : x ∈ st.pool := by
                rw [hpool]
                rcases List.mem_append.mp hx with hx | hx
                · exact List.mem_cons_of_mem h hx
                · rw [List.mem_singleton] at hx
                  exact absurd hx hxh
              refine hi.freeHeader x hxp ?_ g hg
              intro hbx
              exact hnb ((hBound2 x).mpr (Or.inl hbx))
            -- boundHeader
            · intro x hx hbx g hg
              by_cases hxh : x = h
              · subst hxh
                rw [mapGet_mapSet_self] at hg
                injection hg with hg
                rw [← hg]
                obtain ⟨t, hfield, htne⟩ := encodedField_slash p t0 hpd hw
                exact decodeHeaderPath_ne_empty (boundFile f p) 47 t hfield (by omega) htne
              · rw [mapGet_mapSet_ne _ _ _ _ hxh] at hg
                have hxp : x ∈ st.pool := by
                  rw [hpool]
                  rcases List.mem_append.mp hx with hx | hx
                  · exact List.mem_cons_of_mem h hx
                  · rw [List.mem_singleton] at hx
                    exact absurd hx hxh
                rcases (hBound2 x).mp hbx with hbx | hbx
                · exact hi.boundHeader x hxp hbx g hg
                · exact absurd hbx hxh

/-! ## Reconciliation establishes the invariant -/

theorem processSlot_name (e : String × SlotFile) : (processSlot e).1.1 = e.1 := by
  unfold processSlot
  split <;> rfl

theorem processSlot_decode (e : String × SlotFile) :
    decodeHeaderPath (processSlot e).1.2 = (processSlot e).2 := by
  unfold processSlot
  split
  · rfl
  · exact decodeHeaderPath_emptyField _ rfl

/-- A disk whose reconciliation is well defined: distinct physical names and
distinct recovered bound paths. -/
def DiskOK (disk : List (String × SlotFile)) : Prop :=
  (disk.map Prod.fst).Nodup ∧
  (((disk.map processSlot).filter (fun pe => pe.2 ≠ "")).map
    (fun pe => pe.2)).Nodup

instance (disk : List (String × SlotFile)) : Decidable (DiskOK disk) := by
  unfold DiskOK
  infer_instance

/-- The binding fold of reconciliation, with distinct fresh keys, just
appends the recovered bindings in discovery order. -/
theorem recon_fold_eq (l : List ((String × SlotFile) × String))
    (acc : List (String × String))
    (hfresh : ∀ pe ∈ l, pe.2 ≠ "" → pe.2 ∉ acc.map Prod.fst)
    (hdist : ((l.filter (fun pe => pe.2 ≠ "")).map (fun pe => pe.2)).Nodup) :
    l.foldl (fun b pe => if pe.2 ≠ "" then mapSet b pe.2 pe.1.1 else b) acc =
      acc ++ (l.filter (fun pe => pe.2 ≠ "")).map (fun pe => (pe.2, pe.1.1)) := by
  induction l generalizing acc with
  | nil => simp
  | cons pe l' ih =>
    by_cases hpe : pe.2 = ""
    · rw [List.foldl_cons, if_neg (by simpa using hpe)]
      rw [show List.filter (fun pe => decide (pe.2 ≠ "")) (pe :: l') =
        List.filter (fun pe => decide (pe.2 ≠ "")) l' from by
          rw [List.filter_cons, if_neg (by simpa using hpe)]]
      exact ih acc (fun q hq hqne => hfresh q (List.mem_cons_of_mem pe hq) hqne)
        (by rw [show List.filter (fun pe => decide (pe.2 ≠ "")) (pe :: l') =
          List.filter (fun pe => decide (pe.2 ≠ "")) l' from by
            rw [List.filter_cons, if_neg (by simpa using hpe)]] at hdist
            exact hdist)
    · rw [List.foldl_cons, if_pos (by simpa using hpe)]
      rw [mapSet_of_not_mem (hfresh pe (List.mem_cons_self pe l') hpe) pe.1.1]
      have hfilter : List.filter (fun pe => decide (pe.2 ≠ "")) (pe :: l') =
          pe :: List.filter (fun pe => decide (pe.2 ≠ "")) l' := by
        rw [List.filter_cons, if_pos (by simpa using hpe)]
      rw [hfilter] at hdist ⊢
      simp only [List.map_cons, List.nodup_cons] at hdist
      rw [ih (acc ++ [(pe.2, pe.1.1)]) ?_ hdist.2]
      · simp [List.append_assoc]
      · intro q hq hqne
        rw [List.map_append]
        intro hmem
        rcases List.mem_append.mp hmem with hmem | hmem
        · exact hfresh q (List.mem_cons_of_mem pe hq) hqne hmem
        · simp only [List.map_cons, List.map_nil, List.mem_singleton] at hmem
          exact hdist.1 (hmem ▸ (List.mem_map).mpr
            ⟨q, List.mem_filter.mpr ⟨hq, by simpa using hqne⟩, rfl⟩)

/-- The bindings rebuilt by reconciliation, in discovery order. -/
theorem reconcileDisk_bindings (disk : List (String × SlotFile))
    (hd : DiskOK disk) :
    (reconcileDisk disk).bindings =
      ((disk.map processSlot).filter (fun pe => pe.2 ≠ "")).map
        (fun pe => (pe.2, pe.1.1)) := by
  unfold reconcileDisk
  dsimp only
  rw [recon_fold_eq _ [] (by simp) hd.2]
  simp

theorem reconcileDisk_inv (disk : List (String × SlotFile)) (hd : DiskOK disk) :
    Inv (reconcileDisk disk) := by
  have hnamemap : (disk.map processSlot).map (fun pe => pe.1.1) =
      disk.map Prod.fst := by
    rw [List.map_map]
    exact List.map_congr_left (fun e _ => processSlot_name e)
  have hnames : ((disk.map processSlot).map (fun pe => pe.1.1)).Nodup := by
    rw [hnamemap]
    exact hd.1
  have hinj := List.inj_on_of_nodup_map hnames
  have hbind := reconcileDisk_bindings disk hd
  have hpool : (reconcileDisk disk).pool =
      ((disk.map processSlot).filter (fun pe => pe.2 = "")).map (fun pe => pe.1.1) ++
      ((disk.map processSlot).filter (fun pe => pe.2 ≠ "")).map (fun pe => pe.1.1) := rfl
  have hdisk : (reconcileDisk disk).disk = (disk.map processSlot).map (fun pe => pe.1) := rfl
  have hwoNodup : (((disk.map processSlot).filter (fun pe => pe.2 = "")).map
      (fun pe => pe.1.1)).Nodup :=
    (List.Sublist.map (fun pe : (String × SlotFile) × String => pe.1.1)
      (List.filter_sublist _)).nodup hnames
  have hwpNodup : (((disk.map processSlot).filter (fun pe => pe.2 ≠ "")).map
      (fun pe => pe.1.1)).Nodup :=
    (List.Sublist.map (fun pe : (String × SlotFile) × String => pe.1.1)
      (List.filter_sublist _)).nodup hnames
  have hdisj : ∀ x, x ∈ ((disk.map processSlot).filter (fun pe => pe.2 = "")).map
      (fun pe => pe.1.1) →
      x ∈ ((disk.map processSlot).filter (fun pe => pe.2 ≠ "")).map
        (fun pe => pe.1.1) → False := by
    intro x hx1 hx2
    obtain ⟨pe1, hpe1, hn1⟩ := (List.mem_map).mp hx1
    obtain ⟨pe2, hpe2, hn2⟩ := (List.mem_map).mp hx2
    obtain ⟨hpe1m, hpe1p⟩ := List.mem_filter.mp hpe1
    obtain ⟨hpe2m, hpe2p⟩ := List.mem_filter.mp hpe2
    have heq : pe1 = pe2 := hinj hpe1m hpe2m (by rw [hn1, hn2])
    rw [heq] at hpe1p
    simp only [decide_eq_true_eq] at hpe1p hpe2p
    exact hpe2p hpe1p
  -- membership in the rebuilt bindings
  have hisb : ∀ x, isBound (reconcileDisk disk) x ↔
      ∃ pe ∈ disk.map processSlot, pe.2 ≠ "" ∧ pe.1.1 = x := by
    intro x
    unfold isBound
    rw [hbind]
    constructor
    · rintro ⟨e, he, hex⟩
      obtain ⟨pe, hpe, hpee⟩ := (List.mem_map).mp he
      obtain ⟨hpem, hpep⟩ := List.mem_filter.mp hpe
      refine ⟨pe, hpem, by simpa using hpep, ?_⟩
      rw [← hex, ← hpee]
    · rintro ⟨pe, hpe, hpep, rfl⟩
      exact ⟨(pe.2, pe.1.1), (List.mem_map).mpr
        ⟨pe, List.mem_filter.mpr ⟨hpe, by simpa using hpep⟩, rfl⟩, rfl⟩
  constructor
  -- poolNodup
  · rw [hpool]
    exact List.Nodup.append hwoNodup hwpNodup (fun x hx1 hx2 => hdisj x hx1 hx2)
  -- bindKeysNodup
  · rw [hbind, List.map_map]
    exact hd.2
  -- bindInj
  · intro e1 h1 e2 h2 hv
    rw [hbind] at h1 h2
    obtain ⟨pe1, hpe1, hpe1e⟩ := (List.mem_map).mp h1
    obtain ⟨pe2, hpe2, hpe2e⟩ := (List.mem_map).mp h2
    have hn : pe1.1.1 = pe2.1.1 := by
      have v1 : e1.2 = pe1.1.1 := by rw [← hpe1e]
      have v2 : e2.2 = pe2.1.1 := by rw [← hpe2e]
      rw [← v1, ← v2, hv]
    have heq : pe1 = pe2 :=
      hinj (List.mem_filter.mp hpe1).1 (List.mem_filter.mp hpe2).1 hn
    rw [← hpe1e, ← hpe2e, heq]
  -- bindPool
  · intro e he
    rw [hbind] at he
    obtain ⟨pe, hpe, hpee⟩ := (List.mem_map).mp he
    rw [hpool]
    refine List.mem_append.mpr (Or.inr ?_)
    rw [show e.2 = pe.1.1 from by rw [← hpee]]
    exact (List.mem_map).mpr ⟨pe, hpe, rfl⟩
  -- bindNonempty
  · intro e he
    rw [hbind] at he
    obtain ⟨pe, hpe, hpee⟩ := (List.mem_map).mp he
    have := (List.mem_filter.mp hpe).2
    rw [show e.1 = pe.2 from by rw [← hpee]]
    simpa using this
  -- partition
  · refine ⟨_, _, hpool, ?_, ?_⟩
    · intro x hx hb
      obtain ⟨pe', hpe', hpe'p, hpe'n⟩ := (hisb x).mp hb
      obtain ⟨pe, hpe, hn⟩ := (List.mem_map).mp hx
      obtain ⟨hpem, hpep⟩ := List.mem_filter.mp hpe
      have heq : pe = pe' := hinj hpem hpe' (by rw [hn, hpe'n])
      rw [heq] at hpep
      simp only [decide_eq_true_eq] at hpep
      exact hpe'p hpep
    · intro x hx
      obtain ⟨pe, hpe, hn⟩ := (List.mem_map).mp hx
      obtain ⟨hpem, hpep⟩ := List.mem_filter.mp hpe
      exact (hisb x).mpr ⟨pe, hpem, by simpa using hpep, hn⟩
  -- diskKeysNodup
  · rw [hdisk, List.map_map]
    exact hnames
  -- poolDisk
  · intro x hx
    rw [hpool] at hx
    have hx' : ∃ pe ∈ disk.map processSlot, pe.1.1 = x := by
      rcases List.mem_append.mp hx with hx | hx
      · obtain ⟨pe, hpe, hn⟩ := (List.mem_map).mp hx
        exact ⟨pe, (List.mem_filter.mp hpe).1, hn⟩
      · obtain ⟨pe, hpe, hn⟩ := (List.mem_map).mp hx
        exact ⟨pe, (List.mem_filter.mp hpe).1, hn⟩
    obtain ⟨pe, hpe, hn⟩ := hx'
    refine ⟨pe.1.2, ?_⟩
    have hmem : pe.1 ∈ (reconcileDisk disk).disk := by
      rw [hdisk]
      exact (List.mem_map).mpr ⟨pe, hpe, rfl⟩
    have := mapGet_of_mem_nodup (by rw [hdisk, List.map_map]; exact hnames) hmem
    rw [hn] at this
    exact this
  -- freeHeader
  · intro x hx hnb g hg
    rw [hpool] at hx
    have hx' : x ∈ ((disk.map processSlot).filter (fun pe => pe.2 = "")).map
        (fun pe => pe.1.1) := by
      rcases List.mem_append.mp hx with hx | hx
      · exact hx
      · exfalso
        obtain ⟨pe, hpe, hn⟩ := (List.mem_map).mp hx
        obtain ⟨hpem, hpep⟩ := List.mem_filter.mp hpe
        exact hnb ((hisb x).mpr ⟨pe, hpem, by simpa using hpep, hn⟩)
    obtain ⟨pe, hpe, hn⟩ := (List.mem_map).mp hx'
    obtain ⟨hpem, hpep⟩ := List.mem_filter.mp hpe
    have hmem : pe.1 ∈ (reconcileDisk disk).disk := by
      rw [hdisk]
      exact (List.mem_map).mpr ⟨pe, hpem, rfl⟩
    have hget := mapGet_of_mem_nodup (by rw [hdisk, List.map_map]; exact hnames) hmem
    rw [hn, hg] at hget
    injection hget with hget
    obtain ⟨e, hemem, hee⟩ := (List.mem_map).mp hpem
    rw [hget]
    rw [show pe.1.2 = (processSlot e).1.2 from by rw [hee]]
    rw [processSlot_decode e, hee]
    simpa using hpep
  -- boundHeader
  · intro x hx hb g hg
    obtain ⟨pe, hpem, hpep, hn⟩ := (hisb x).mp hb
    have hmem : pe.1 ∈ (reconcileDisk disk).disk := by
      rw [hdisk]
      exact (List.mem_map).mpr ⟨pe, hpem, rfl⟩
    have hget := mapGet_of_mem_nodup (by rw [hdisk, List.map_map]; exact hnames) hmem
    rw [hn, hg] at hget
    injection hget with hget
    obtain ⟨e, hemem, hee⟩ := (List.mem_map).mp hpem
    rw [hget]
    rw [show pe.1.2 = (processSlot e).1.2 from by rw [hee]]
    rw [processSlot_decode e, hee]
    exact hpep

/-! ## Sequences of engine operations -/

/-- The operations claim C1 ranges over. -/
inductive PoolOp where
  | openFile (name : String) (fileId : Nat) (flags : OpenFlags)
  | closeFile (fileId : Nat)
  | deleteFile (name : String)
deriving DecidableEq, Repr

def applyOp (st : VFSState) : PoolOp → VFSState
  | .openFile name fid fl => (xOpenName st name fid fl).2
  | .closeFile fid => (xClose st fid).2
  | .deleteFile name => (xDelete st name).2

def applyOps (st : VFSState) (ops : List PoolOp) : VFSState :=
  ops.foldl applyOp st

theorem applyOp_inv {st : VFSState} (hi : Inv st) (op : PoolOp) :
    Inv (applyOp st op) := by
  cases op with
  | openFile name fid fl =>
    exact xOpen_inv hi (getPath name) (getPath_data name) fid fl
  | closeFile fid => exact xClose_inv hi fid
  | deleteFile name => exact deletePath_inv hi (getPath name)

theorem applyOps_inv {st : VFSState} (hi : Inv st) (ops : List PoolOp) :
    Inv (applyOps st ops) := by
  induction ops generalizing st with
  | nil => exact hi
  | cons op t ih => exact ih (applyOp_inv hi op)

/-! ## Claim theorems -/

/-- C1: Starting from a reconciled pool, after any sequence of open, close
and delete operations, every open logical path is bound to exactly one slot,
every slot carries at most one path, binding paths are nonempty, in the pool
order every free slot precedes every bound slot, no free slot's header
denotes a nonempty path and no bound slot's header denotes the empty path. -/
theorem pool_invariant_preserved (disk : List (String × SlotFile))
    (hd : DiskOK disk) (ops : List PoolOp) :
    Inv (applyOps (reconcileDisk disk) ops) :=
  applyOps_inv (reconcileDisk_inv disk hd) ops

/-- A 1-slot directory holding one canonical free slot. -/
def witnessDisk : List (String × SlotFile) :=
  [("slot1", ⟨emptyPathField, emptyDigest, []⟩)]

/-- A sample operation sequence: create, reopen, delete, close. -/
def witnessOps : List PoolOp :=
  [PoolOp.openFile "a.db" 1 ⟨true, false⟩,
   PoolOp.closeFile 1,
   PoolOp.openFile "/a.db" 2 ⟨false, true⟩,
   PoolOp.deleteFile "a.db",
   PoolOp.closeFile 2]

set_option maxRecDepth 100000 in
theorem pool_invariant_preserved_witness :
    DiskOK witnessDisk ∧ Inv (applyOps (reconcileDisk witnessDisk) witnessOps) :=
  ⟨by decide, pool_invariant_preserved witnessDisk (by decide) witnessOps⟩

/-- C2: `xOpen` branch behaviour.  With the invariant in force and a
well-formed path: an existing binding is returned as-is; otherwise, with the
create flag and a non-empty free partition, the first pool slot is rebound to
the path and moved to the pool tail; otherwise, with the create flag and no
free slot, the call fails and the state (in particular the capacity) is
unchanged. -/
theorem xOpen_spec {st : VFSState} (hi : Inv st) (p : String) (fid : Nat)
    (fl : OpenFlags) (hp : p ≠ "")
    (hw : (encodeInto p.data HEADER_MAX_PATH_SIZE).written < HEADER_MAX_PATH_SIZE) :
    (∀ h, mapGet st.bindings p = some h →
      xOpen st p fid fl =
        (VfsRc.ok, { st with openFiles := mapSet st.openFiles fid ⟨p, fl, h⟩ })) ∧
    (mapGet st.bindings p = none → fl.create = true →
      (∃ x ∈ st.pool, ¬ isBound st x) →
      ∃ h rest, st.pool = h :: rest ∧ ¬ isBound st h ∧
        (xOpen st p fid fl).1 = VfsRc.ok ∧
        (xOpen st p fid fl).2.pool = rest ++ [h] ∧
        (xOpen st p fid fl).2.bindings = st.bindings ++ [(p, h)] ∧
        mapGet (xOpen st p fid fl).2.openFiles fid = some ⟨p, fl, h⟩) ∧
    (mapGet st.bindings p = none → fl.create = true →
      ¬ (∃ x ∈ st.pool, ¬ isBound st x) →
      xOpen st p fid fl = (VfsRc.cantopen, st)) := by
  refine ⟨?_, ?_, ?_⟩
  · intro h hb
    unfold xOpen finishOpen
    rw [hb]
    dsimp only
    rw [mapSet_of_mapGet_eq hb]
  · intro hb hcr hfree
    have hlt : getSize st < getCapacity st := (size_lt_capacity_iff hi).mpr hfree
    obtain ⟨x0, hx0, hx0f⟩ := hfree
    have hne : st.pool ≠ [] := List.ne_nil_of_mem hx0
    obtain ⟨h, rest, hpool⟩ := List.exists_cons_of_ne_nil hne
    -- the head slot is free: a bound head would force the free partition empty
    have hfreeh : ¬ isBound st h := by
      obtain ⟨fr, bd, hsp, hfr, hbd⟩ := hi.partition
      have hfrne : fr ≠ [] := by
        intro h0
        rw [hsp, h0, List.nil_append] at hx0
        exact hx0f (hbd x0 hx0)
      obtain ⟨f0, fr', hfr0⟩ := List.exists_cons_of_ne_nil hfrne
      have : st.pool = f0 :: (fr' ++ bd) := by rw [hsp, hfr0, List.cons_append]
      rw [hpool] at this
      have hh : h = f0 := by injection this
      exact hh ▸ hfr f0 (hfr0 ▸ List.mem_cons_self f0 fr')
    have hhead : h ∈ st.pool := hpool ▸ List.mem_cons_self h rest
    obtain ⟨f, hf⟩ := hi.poolDisk h hhead
    have hrestpool : st.pool.erase h = rest := by
      rw [hpool]
      exact List.erase_cons_head h rest
    have hbindings : mapSet st.bindings p h = st.bindings ++ [(p, h)] :=
      mapSet_of_not_mem (mapGet_none_iff.mp hb) h
    refine ⟨h, rest, hpool, hfreeh, ?_⟩
    unfold xOpen
    rw [hb]
    dsimp only
    rw [if_pos hcr, if_pos hlt, hpool]
    dsimp only
    rw [setAssociatedPath_some_eq st h p f hf hp hw]
    unfold finishOpen
    dsimp only
    rw [if_pos hhead, hrestpool, hbindings]
    exact ⟨rfl, rfl, rfl, mapGet_mapSet_self _ _ _⟩
  · intro hb hcr hfree
    have hge : ¬ getSize st < getCapacity st := by
      intro hlt
      exact hfree ((size_lt_capacity_iff hi).mp hlt)
    unfold xOpen
    rw [hb]
    dsimp only
    rw [if_pos hcr, if_neg hge]

set_option maxRecDepth 100000 in
theorem xOpen_spec_witness :
    (∀ h, mapGet (reconcileDisk witnessDisk).bindings "/w.db" = some h →
      xOpen (reconcileDisk witnessDisk) "/w.db" 3 ⟨true, false⟩ =
        (VfsRc.ok, { reconcileDisk witnessDisk with
          openFiles := mapSet (reconcileDisk witnessDisk).openFiles 3
            ⟨"/w.db", ⟨true, false⟩, h⟩ })) ∧
    (mapGet (reconcileDisk witnessDisk).bindings "/w.db" = none →
      (⟨true, false⟩ : OpenFlags).create = true →
      (∃ x ∈ (reconcileDisk witnessDisk).pool,
        ¬ isBound (reconcileDisk witnessDisk) x) →
      ∃ h rest, (reconcileDisk witnessDisk).pool = h :: rest ∧
        ¬ isBound (reconcileDisk witnessDisk) h ∧
        (xOpen (reconcileDisk witnessDisk) "/w.db" 3 ⟨true, false⟩).1 = VfsRc.ok ∧
        (xOpen (reconcileDisk witnessDisk) "/w.db" 3 ⟨true, false⟩).2.pool =
          rest ++ [h] ∧
        (xOpen (reconcileDisk witnessDisk) "/w.db" 3 ⟨true, false⟩).2.bindings =
          (reconcileDisk witnessDisk).bindings ++ [("/w.db", h)] ∧
        mapGet (xOpen (reconcileDisk witnessDisk) "/w.db" 3
          ⟨true, false⟩).2.openFiles 3 = some ⟨"/w.db", ⟨true, false⟩, h⟩) ∧
    (mapGet (reconcileDisk witnessDisk).bindings "/w.db" = none →
      (⟨true, false⟩ : OpenFlags).create = true →
      ¬ (∃ x ∈ (reconcileDisk witnessDisk).pool,
        ¬ isBound (reconcileDisk witnessDisk) x) →
      xOpen (reconcileDisk witnessDisk) "/w.db" 3 ⟨true, false⟩ =
        (VfsRc.cantopen, reconcileDisk witnessDisk)) :=
  xOpen_spec (reconcileDisk_inv witnessDisk (by decide)) "/w.db" 3 ⟨true, false⟩
    (by decide) (by decide)

set_option maxRecDepth 100000 in
/-- C3 (code bug): `removeCapacity` is documented to return the number of
slots removed, but when the loop consumes every pool entry (no binding stops
it early) control falls off the `for` loop and JavaScript returns
`undefined`.  With one free slot and no bindings, `removeCapacity(1)`
removes the slot yet returns `undefined` instead of `1`. -/
theorem removeCapacity_returns_undefined :
    getCapacity (reconcileDisk witnessDisk) = 1 ∧
    getSize (reconcileDisk witnessDisk) = 0 ∧
    (removeCapacity (reconcileDisk witnessDisk) 1).2.pool = [] ∧
    (removeCapacity (reconcileDisk witnessDisk) 1).2.disk = [] ∧
    (removeCapacity (reconcileDisk witnessDisk) 1).1 = none := by
  decide

/-- Open-handles are untouched by `#deletePath`. -/
theorem deletePath_openFiles (st : VFSState) (p : String) :
    (deletePath st p).openFiles = st.openFiles := by
  unfold deletePath
  cases hg : mapGet st.bindings p with
  | none => rfl
  | some h =>
    dsimp only
    show ((setAssociatedPath st h "").getD st).openFiles = st.openFiles
    cases hf : mapGet st.disk h with
    | none =>
      unfold setAssociatedPath writeHeader truncateData
      rw [hf]
      rw [if_neg (by simp [encodeInto, HEADER_MAX_PATH_SIZE])]
      dsimp only [Option.getD]
      repeat' split
      all_goals rfl
    | some f =>
      rw [setAssociatedPath_empty_eq st h f hf]
      dsimp only [Option.getD]

/-- C9: closing a file id with no registered handle returns OK and leaves
the whole state unchanged; consequently a second close of the same id is a
no-op, making close idempotent at the public interface. -/
theorem xClose_unknown_id (st : VFSState) (fid : Nat) :
    (mapGet st.openFiles fid = none → xClose st fid = (VfsRc.ok, st)) ∧
    xClose (xClose st fid).2 fid = (VfsRc.ok, (xClose st fid).2) := by
  have hnone : ∀ st' : VFSState, mapGet st'.openFiles fid = none →
      xClose st' fid = (VfsRc.ok, st') := by
    intro st' h
    unfold xClose
    rw [h]
  refine ⟨hnone st, ?_⟩
  cases hg : mapGet st.openFiles fid with
  | none =>
    rw [show (xClose st fid).2 = st from by rw [hnone st hg]]
    exact hnone st hg
  | some file =>
    apply hnone
    have h2 : (xClose st fid).2.openFiles = mapDelete st.openFiles fid := by
      unfold xClose
      rw [hg]
      dsimp only
      split
      · rw [deletePath_openFiles]
      · rfl
    rw [h2]
    exact mapGet_mapDelete_self _ _

theorem xClose_unknown_id_witness :
    mapGet (reconcileDisk witnessDisk).openFiles 9 = none ∧
    xClose (reconcileDisk witnessDisk) 9 = (VfsRc.ok, reconcileDisk witnessDisk) := by
  have h := (xClose_unknown_id (reconcileDisk witnessDisk) 9).1
  exact ⟨by decide, h (by decide)⟩

/-- C10: open, access and delete each resolve the logical name through
`#getPath` before any lookup, so two names with the same resolved pathname
denote the same logical file in every operation. -/
theorem name_normalization (st : VFSState) (n n' : String)
    (h : getPath n = getPath n') (fid : Nat) (fl : OpenFlags) :
    xAccess st n = xAccess st n' ∧
    xDelete st n = xDelete st n' ∧
    xOpenName st n fid fl = xOpenName st n' fid fl := by
  unfold xAccess xDelete xOpenName
  rw [h]
  exact ⟨rfl, rfl, rfl⟩

theorem name_normalization_witness :
    getPath "a.db" = getPath "/a.db" ∧
    (xAccess (reconcileDisk witnessDisk) "a.db" =
        xAccess (reconcileDisk witnessDisk) "/a.db" ∧
      xDelete (reconcileDisk witnessDisk) "a.db" =
        xDelete (reconcileDisk witnessDisk) "/a.db" ∧
      xOpenName (reconcileDisk witnessDisk) "a.db" 1 ⟨true, false⟩ =
        xOpenName (reconcileDisk witnessDisk) "/a.db" 1 ⟨true, false⟩) :=
  ⟨by decide, name_normalization (reconcileDisk witnessDisk) "a.db" "/a.db"
    (by decide) 1 ⟨true, false⟩⟩

/-! ## C4: capacity expansion -/

/-- The empty pool state. -/
def emptyState : VFSState := ⟨[], [], [], []⟩

/-- C4 counterexample: if slot creation throws after the first slot is fully
created and initialized, the exception propagates before the pool map is
rebuilt, so the already-created slot exists on disk but is **not** in the
pool and not counted by `getCapacity` — contradicting the claim that slots
created before the failure "remain intact in the pool and are counted in its
capacity". -/
theorem addCapacity_partial_failure_not_counted :
    (addCapacityFail emptyState ["n1"]).disk.length = 1 ∧
    mapGet (addCapacityFail emptyState ["n1"]).disk "n1" = some freedFile ∧
    getCapacity (addCapacityFail emptyState ["n1"]) = 0 ∧
    (addCapacityFail emptyState ["n1"]).pool = [] := by
  set_option maxRecDepth 100000 in decide

theorem initSlot_eq (st : VFSState) (n : String) (hp : n ∉ st.pool) :
    initSlot st n = { st with disk := mapSet st.disk n freedFile } := by
  unfold initSlot
  dsimp only
  rw [setAssociatedPath_empty_eq { st with disk := mapSet st.disk n newSlotFile }
    n newSlotFile (mapGet_mapSet_self _ _ _)]
  simp only [Option.getD_some, if_neg hp, mapSet_mapSet]

/-- Effect of the creation loop on fresh, pairwise-distinct names. -/
theorem foldl_initSlot (names : List String) (st : VFSState)
    (hnodup : names.Nodup)
    (hfresh : ∀ n ∈ names, n ∉ st.pool) :
    (names.foldl initSlot st).pool = st.pool ∧
    (names.foldl initSlot st).bindings = st.bindings ∧
    (∀ n, n ∉ names → mapGet (names.foldl initSlot st).disk n = mapGet st.disk n) ∧
    (∀ n ∈ names, mapGet (names.foldl initSlot st).disk n = some freedFile) := by
  induction names generalizing st with
  | nil => exact ⟨rfl, rfl, fun n _ => rfl, by simp⟩
  | cons n0 t ih =>
    have hn0 : n0 ∉ st.pool := hfresh n0 (List.mem_cons_self n0 t)
    rw [List.foldl_cons, initSlot_eq st n0 hn0]
    obtain ⟨hpool, hbind, hother, hmem⟩ := ih
      { st with disk := mapSet st.disk n0 freedFile }
      (List.nodup_cons.mp hnodup).2
      (fun n hn => hfresh n (List.mem_cons_of_mem n0 hn))
    refine ⟨hpool, hbind, ?_, ?_⟩
    · intro n hn
      rw [List.mem_cons] at hn
      push_neg at hn
      rw [hother n hn.2]
      exact mapGet_mapSet_ne _ _ _ _ hn.1
    · intro n hn
      rcases List.mem_cons.mp hn with rfl | hn
      · rw [hother n (List.nodup_cons.mp hnodup).1]
        exact mapGet_mapSet_self _ _ _
      · exact hmem n hn

/-- C4 (amended): `addCapacity` with `n` fresh slot names initializes each
new slot with the canonical empty header, prepends them to the pool (ahead
of the existing free partition) and returns `n`.  When creation fails after
`k` slots, those `k` slots are fully initialized on disk but the pool,
bindings and capacity are unchanged — the created slots are only picked up
by a later reconciliation. -/
theorem addCapacity_spec (st : VFSState) (names : List String)
    (hnodup : names.Nodup) (hfresh : ∀ n ∈ names, n ∉ st.pool) :
    (addCapacity st names).1 = names.length ∧
    (addCapacity st names).2.pool = names ++ st.pool ∧
    (addCapacity st names).2.bindings = st.bindings ∧
    (∀ n ∈ names, mapGet (addCapacity st names).2.disk n = some freedFile) ∧
    (addCapacityFail st names).pool = st.pool ∧
    getCapacity (addCapacityFail st names) = getCapacity st ∧
    (addCapacityFail st names).bindings = st.bindings ∧
    (∀ n ∈ names, mapGet (addCapacityFail st names).disk n = some freedFile) := by
  obtain ⟨hpool, hbind, hother, hmem⟩ := foldl_initSlot names st hnodup hfresh
  unfold addCapacity addCapacityFail
  dsimp only
  refine ⟨rfl, ?_, hbind, hmem, hpool, ?_, hbind, hmem⟩
  · rw [hpool]
  · unfold getCapacity
    rw [hpool]

theorem addCapacity_spec_witness :
    (["f1", "f2"] : List String).Nodup ∧
    (∀ n ∈ (["f1", "f2"] : List String), n ∉ emptyState.pool) ∧
    ((addCapacity emptyState ["f1", "f2"]).1 = 2 ∧
      (addCapacity emptyState ["f1", "f2"]).2.pool = ["f1", "f2"] ∧
      mapGet (addCapacity emptyState ["f1", "f2"]).2.disk "f2" = some freedFile) := by
  have h := addCapacity_spec emptyState ["f1", "f2"] (by decide)
    (by set_option maxRecDepth 100000 in decide)
  refine ⟨by decide, by decide, h.1, ?_, h.2.2.2.1 "f2" (by decide)⟩
  rw [h.2.1]
  rfl

/-! ## C5: header round-trip -/

/-- A path containing an embedded NUL character. -/
def nulPath : String := ⟨['a', Char.ofNat 0, 'b']⟩

/-- C5 counterexample: `"a\u0000b"` encodes into 3 bytes — well within the
512-byte field — and the rebind succeeds, yet reading the header back stops
at the first zero byte and returns `"a"`, not the original path.  The claim
as stated (round-trip for *every* path whose encoding fits) is false. -/
theorem rebind_roundtrip_fails_on_nul :
    (encodeInto nulPath.data HEADER_MAX_PATH_SIZE).written = 3 ∧
    (setAssociatedPath (reconcileDisk witnessDisk) "slot1" nulPath).isSome = true ∧
    (getAssociatedPath
      ((setAssociatedPath (reconcileDisk witnessDisk) "slot1" nulPath).getD
        (reconcileDisk witnessDisk)) "slot1").1 = "a" ∧
    ("a" : String) ≠ nulPath := by
  set_option maxRecDepth 100000 in decide

/-- C5 (amended): for every NUL-free path whose UTF-8 encoding is at most
511 bytes (strictly inside the 512-byte field, leaving room for the null
terminator), rebinding a slot and reading its header back returns exactly
the path, and the stored digest equals the digest recomputed from the padded
path field. -/
theorem rebind_roundtrip {st : VFSState} {h : String} {f : SlotFile}
    (hf : mapGet st.disk h = some f) (p : String)
    (hnz : ∀ c ∈ p.data, c.toNat ≠ 0)
    (hfit : (encodeChars p.data).length ≤ HEADER_MAX_PATH_SIZE - 1) :
    ∃ st1, setAssociatedPath st h p = some st1 ∧
      (getAssociatedPath st1 h).1 = p ∧
      ∀ g, mapGet st1.disk h = some g → g.digest = computeDigest g.pathField := by
  have hsz : HEADER_MAX_PATH_SIZE = 512 := rfl
  have henc := encodeInto_of_fits p.data HEADER_MAX_PATH_SIZE (by omega)
  have hw : (encodeInto p.data HEADER_MAX_PATH_SIZE).written < HEADER_MAX_PATH_SIZE := by
    rw [henc]
    dsimp only
    omega
  by_cases hp : p = ""
  · subst hp
    refine ⟨_, setAssociatedPath_empty_eq st h f hf, ?_, ?_⟩
    · unfold getAssociatedPath
      dsimp only
      rw [mapGet_mapSet_self]
      dsimp only
      rw [if_pos (show freedFile.digest = computeDigest freedFile.pathField from rfl)]
      rw [decodeHeaderPath_emptyField freedFile rfl]
    · intro g hg
      dsimp only at hg
      rw [mapGet_mapSet_self] at hg
      injection hg with hg
      rw [← hg]
      rfl
  · refine ⟨_, setAssociatedPath_some_eq st h p f hf hp hw, ?_, ?_⟩
    · unfold getAssociatedPath
      dsimp only
      rw [mapGet_mapSet_self]
      dsimp only
      rw [if_pos (show (boundFile f p).digest =
        computeDigest (boundFile f p).pathField from rfl)]
      rw [decodeHeaderPath_boundFile f p hnz hw, henc]
      show ({ data := p.data.take p.length } : String) = p
      rw [show p.length = p.data.length from rfl, List.take_length]
    · intro g hg
      dsimp only at hg
      rw [mapGet_mapSet_self] at hg
      injection hg with hg
      rw [← hg]
      rfl

theorem rebind_roundtrip_witness :
    mapGet (reconcileDisk witnessDisk).disk "slot1" = some freedFile ∧
    (∀ c ∈ ("/w.db" : String).data, c.toNat ≠ 0) ∧
    (encodeChars ("/w.db" : String).data).length ≤ HEADER_MAX_PATH_SIZE - 1 ∧
    (∃ st1, setAssociatedPath (reconcileDisk witnessDisk) "slot1" "/w.db" = some st1 ∧
      (getAssociatedPath st1 "slot1").1 = "/w.db" ∧
      ∀ g, mapGet st1.disk "slot1" = some g →
        g.digest = computeDigest g.pathField) :=
  ⟨by set_option maxRecDepth 100000 in decide, by decide, by decide,
    rebind_roundtrip (f := freedFile)
      (by set_option maxRecDepth 100000 in decide) "/w.db" (by decide) (by decide)⟩

/-! ## C6: path-too-long detection -/

/-- 511 ASCII characters followed by a three-byte character: the full UTF-8
encoding needs 514 bytes and overflows the 512-byte field. -/
def truncPath : String := ⟨List.replicate 511 'a' ++ ['€']⟩

/-- C6 (code bug): `#setAssociatedPath` only throws when
`encodedResult.written >= 512`.  `encodeInto` writes whole characters only,
so for `truncPath` it stops after the 511 `a` bytes (the euro sign does not
fit), `written = 511` passes the check, and the header is silently written
with the truncated path — no `path too long` error although the encoding
overflows the field, and the slot ends up bound to a different path than
requested. -/
theorem rebind_overflow_not_detected :
    (encodeChars truncPath.data).length = 514 ∧
    (encodeInto truncPath.data HEADER_MAX_PATH_SIZE).written = 511 ∧
    (setAssociatedPath (reconcileDisk witnessDisk) "slot1" truncPath).isSome = true ∧
    (getAssociatedPath ((setAssociatedPath (reconcileDisk witnessDisk) "slot1"
        truncPath).getD (reconcileDisk witnessDisk)) "slot1").1 =
      ⟨List.replicate 511 'a'⟩ ∧
    (⟨List.replicate 511 'a'⟩ : String) ≠ truncPath := by
  set_option maxRecDepth 1000000 in decide

/-! ## C7: corrupt headers self-heal to free -/

/-- Every entry of the reconciliation binding fold comes from a processed
slot with a non-empty recovered path. -/
theorem mem_recon_fold (l : List ((String × SlotFile) × String))
    (acc : List (String × String)) (e : String × String) :
    e ∈ l.foldl (fun b pe => if pe.2 ≠ "" then mapSet b pe.2 pe.1.1 else b) acc →
    e ∈ acc ∨ ∃ pe ∈ l, pe.2 ≠ "" ∧ e = (pe.2, pe.1.1) := by
  induction l generalizing acc with
  | nil =>
    intro h
    exact Or.inl h
  | cons pe l' ih =>
    intro h
    rw [List.foldl_cons] at h
    by_cases hpe : pe.2 = ""
    · rw [if_neg (by simpa using hpe)] at h
      rcases ih acc h with h | ⟨q, hq, hqp⟩
      · exact Or.inl h
      · exact Or.inr ⟨q, List.mem_cons_of_mem pe hq, hqp⟩
    · rw [if_pos (by simpa using hpe)] at h
      rcases ih (mapSet acc pe.2 pe.1.1) h with h | ⟨q, hq, hqp⟩
      · rcases mem_mapSet h with h | h
        · exact Or.inr ⟨pe, List.mem_cons_self pe l', hpe, h⟩
        · exact Or.inl h
      · exact Or.inr ⟨q, List.mem_cons_of_mem pe hq, hqp⟩

/-- C7: during reconciliation, a slot whose stored digest does not match the
digest recomputed from its path field is repaired to the canonical empty
header (empty path field, matching digest, no payload), is placed in the
pool unbound (free), and the corruption never surfaces as an error or as a
binding. -/
theorem reconcile_heals_corrupt_header (disk : List (String × SlotFile))
    (hnames : (disk.map Prod.fst).Nodup) (name : String) (f : SlotFile)
    (hmem : (name, f) ∈ disk) (hbad : f.digest ≠ computeDigest f.pathField) :
    mapGet (reconcileDisk disk).disk name = some ⟨emptyPathField, emptyDigest, []⟩ ∧
    name ∈ (reconcileDisk disk).pool ∧
    ¬ isBound (reconcileDisk disk) name := by
  have hnamemap : (disk.map processSlot).map (fun pe => pe.1.1) =
      disk.map Prod.fst := by
    rw [List.map_map]
    exact List.map_congr_left (fun e _ => processSlot_name e)
  have hnames' : ((disk.map processSlot).map (fun pe => pe.1.1)).Nodup := by
    rw [hnamemap]
    exact hnames
  have hinj := List.inj_on_of_nodup_map hnames'
  have hps : processSlot (name, f) = ((name, ⟨emptyPathField, emptyDigest, []⟩), "") := by
    unfold processSlot
    rw [if_neg hbad]
  have hpmem : processSlot (name, f) ∈ disk.map processSlot :=
    (List.mem_map).mpr ⟨(name, f), hmem, rfl⟩
  refine ⟨?_, ?_, ?_⟩
  · have hentry : (name, (⟨emptyPathField, emptyDigest, []⟩ : SlotFile)) ∈
        (reconcileDisk disk).disk := by
      show _ ∈ (disk.map processSlot).map (fun pe => pe.1)
      refine (List.mem_map).mpr ⟨processSlot (name, f), hpmem, ?_⟩
      rw [hps]
    have := mapGet_of_mem_nodup (m := (reconcileDisk disk).disk)
      (by show ((disk.map processSlot).map (fun pe => pe.1)).map Prod.fst |>.Nodup
          rw [List.map_map]
          exact hnames') hentry
    exact this
  · show name ∈ _ ++ _
    refine List.mem_append.mpr (Or.inl ?_)
    refine (List.mem_map).mpr ⟨processSlot (name, f), ?_, by rw [hps]⟩
    refine List.mem_filter.mpr ⟨hpmem, ?_⟩
    rw [hps]
    rfl
  · rintro ⟨e, he, hev⟩
    have hfold := mem_recon_fold (disk.map processSlot) [] e he
    rcases hfold with h | ⟨pe, hpe, hpene, hpee⟩
    · simp at h
    · have hn : pe.1.1 = name := by rw [hpee] at hev; exact hev
      have heq : pe = processSlot (name, f) := hinj hpe hpmem (by rw [hn, hps])
      rw [heq, hps] at hpene
      exact hpene rfl

/-- A slot whose digest field has been corrupted. -/
def corruptFile : SlotFile := ⟨emptyPathField, [1, 2], [9]⟩

def corruptDisk : List (String × SlotFile) := [("c1", corruptFile)]

set_option maxRecDepth 1000000 in
theorem reconcile_heals_corrupt_header_witness :
    (corruptDisk.map Prod.fst).Nodup ∧
    ("c1", corruptFile) ∈ corruptDisk ∧
    corruptFile.digest ≠ computeDigest corruptFile.pathField ∧
    (mapGet (reconcileDisk corruptDisk).disk "c1" =
        some ⟨emptyPathField, emptyDigest, []⟩ ∧
      "c1" ∈ (reconcileDisk corruptDisk).pool ∧
      ¬ isBound (reconcileDisk corruptDisk) "c1") :=
  ⟨by decide, by decide, by set_option maxRecDepth 100000 in decide,
    reconcile_heals_corrupt_header corruptDisk (by decide) "c1" corruptFile
      (by set_option maxRecDepth 100000 in decide)
      (by set_option maxRecDepth 100000 in decide)⟩

/-! ## C8: restart reconciliation rebuilds the bindings -/

/-- The persisted header behind binding `e` verifies and decodes to `e`'s
path. -/
def headerMatches (st : VFSState) (e : String × String) : Prop :=
  match mapGet st.disk e.2 with
  | some f => f.digest = computeDigest f.pathField ∧ decodeHeaderPath f = e.1
  | none => False

instance (st : VFSState) (e : String × String) : Decidable (headerMatches st e) := by
  unfold headerMatches
  split <;> infer_instance

/-- A state whose binding headers have been persisted: distinct physical
names, well-formed bindings, every binding's header flushed and verifiable,
and every non-bound physical file recovering to the empty path. -/
structure PersistedOK (st : VFSState) : Prop where
  diskKeysNodup : (st.disk.map Prod.fst).Nodup
  bindKeysNodup : (st.bindings.map Prod.fst).Nodup
  bindInj : ∀ e1 ∈ st.bindings, ∀ e2 ∈ st.bindings, e1.2 = e2.2 → e1.1 = e2.1
  bindNonempty : ∀ e ∈ st.bindings, e.1 ≠ ""
  headersExact : ∀ e ∈ st.bindings, headerMatches st e
  unboundEmpty : ∀ ne ∈ st.disk, (¬ ∃ e ∈ st.bindings, e.2 = ne.1) →
    (processSlot ne).2 = ""

/-- C8: discarding all in-memory state and re-running reconciliation over
the same physical slots rebuilds a binding map extensionally equal to the
pre-discard bindings; every pre-discard binding handle is again a bound
slot, and every other physical file joins the pool as a free slot. -/
theorem reconcile_rebuilds_bindings {st : VFSState} (hp : PersistedOK st) :
    (∀ q, mapGet (reconcileDisk st.disk).bindings q = mapGet st.bindings q) ∧
    (∀ e ∈ st.bindings, isBound (reconcileDisk st.disk) e.2) ∧
    (∀ ne ∈ st.disk, ne.1 ∈ (reconcileDisk st.disk).pool) ∧
    (∀ ne ∈ st.disk, (¬ ∃ e ∈ st.bindings, e.2 = ne.1) →
      ¬ isBound (reconcileDisk st.disk) ne.1) := by
  -- B: each binding's slot processes to itself with the binding's path
  have hB : ∀ e ∈ st.bindings, ∃ f, mapGet st.disk e.2 = some f ∧
      processSlot (e.2, f) = ((e.2, f), e.1) ∧ (e.2, f) ∈ st.disk := by
    intro e he
    have hhm := hp.headersExact e he
    unfold headerMatches at hhm
    cases hg : mapGet st.disk e.2 with
    | none => rw [hg] at hhm; exact absurd hhm (by simp)
    | some f =>
      rw [hg] at hhm
      refine ⟨f, rfl, ?_, mapGet_eq_some_mem hg⟩
      unfold processSlot
      dsimp only
      rw [if_pos hhm.1, hhm.2]
  -- A: each slot recovering a nonempty path is a binding's slot
  have hA : ∀ ne ∈ st.disk, (processSlot ne).2 ≠ "" →
      ∃ e ∈ st.bindings, e.2 = ne.1 ∧ (processSlot ne).2 = e.1 := by
    intro ne hne hpne
    by_cases hb : ∃ e ∈ st.bindings, e.2 = ne.1
    · obtain ⟨e, he, hev⟩ := hb
      obtain ⟨f, hgf, hpf, hmemf⟩ := hB e he
      have hgne : mapGet st.disk ne.1 = some ne.2 :=
        mapGet_of_mem_nodup hp.diskKeysNodup hne
      rw [hev] at hgf
      rw [hgf] at hgne
      injection hgne with hfe
      have : ne = (e.2, f) := by
        rw [hfe, hev]
      rw [this, hpf]
      exact ⟨e, he, rfl, rfl⟩
    · exact absurd (hp.unboundEmpty ne hne hb) hpne
  have hdok : DiskOK st.disk := by
    refine ⟨hp.diskKeysNodup, ?_⟩
    have hprocNodup : (st.disk.map processSlot).Nodup := by
      apply List.Nodup.of_map (fun pe => pe.1.1)
      rw [List.map_map]
      rw [show ((fun pe => pe.1.1) ∘ processSlot) = fun e : String × SlotFile => e.1 from
        funext (fun e => processSlot_name e)]
      exact hp.diskKeysNodup
    refine List.Nodup.map_on ?_ ((List.filter_sublist _).nodup hprocNodup)
    intro pe1 h1 pe2 h2 hpp
    obtain ⟨h1m, h1p⟩ := List.mem_filter.mp h1
    obtain ⟨h2m, h2p⟩ := List.mem_filter.mp h2
    obtain ⟨ne1, hne1, hpe1⟩ := (List.mem_map).mp h1m
    obtain ⟨ne2, hne2, hpe2⟩ := (List.mem_map).mp h2m
    obtain ⟨e1, he1, hval1, hpath1⟩ := hA ne1 hne1 (by rw [hpe1]; simpa using h1p)
    obtain ⟨e2, he2, hval2, hpath2⟩ := hA ne2 hne2 (by rw [hpe2]; simpa using h2p)
    have hkeys : e1.1 = e2.1 := by
      rw [← hpath1, ← hpath2, hpe1, hpe2, hpp]
    have hee : e1 = e2 := by
      have g1 := mapGet_of_mem_nodup hp.bindKeysNodup he1
      have g2 := mapGet_of_mem_nodup hp.bindKeysNodup he2
      rw [hkeys] at g1
      rw [g1] at g2
      injection g2 with gv
      exact Prod.ext hkeys gv
    have hnn : ne1.1 = ne2.1 := by
      rw [← hval1, ← hval2, hee]
    have hne12 : ne1 = ne2 := by
      have g1 := mapGet_of_mem_nodup hp.diskKeysNodup hne1
      have g2 := mapGet_of_mem_nodup hp.diskKeysNodup hne2
      rw [hnn] at g1
      rw [g1] at g2
      injection g2 with gv
      exact Prod.ext hnn gv
    rw [← hpe1, ← hpe2, hne12]
  have hbindL := reconcileDisk_bindings st.disk hdok
  have hLkeysNodup : ((reconcileDisk st.disk).bindings.map Prod.fst).Nodup := by
    rw [hbindL, List.map_map]
    exact hdok.2
  refine ⟨?_, ?_, ?_, ?_⟩
  · intro q
    cases hq : mapGet st.bindings q with
    | some h =>
      have he : (q, h) ∈ st.bindings := mapGet_eq_some_mem hq
      obtain ⟨f, hgf, hpf, hmemf⟩ := hB (q, h) he
      have hmemL : (q, h) ∈ (reconcileDisk st.disk).bindings := by
        rw [hbindL]
        refine (List.mem_map).mpr ⟨processSlot (h, f), ?_, by rw [hpf]⟩
        refine List.mem_filter.mpr ⟨(List.mem_map).mpr ⟨(h, f), hmemf, rfl⟩, ?_⟩
        rw [hpf]
        simpa using hp.bindNonempty (q, h) he
      exact mapGet_of_mem_nodup hLkeysNodup hmemL
    | none =>
      rw [mapGet_none_iff]
      intro hmem
      obtain ⟨e, heL, hek⟩ := (List.mem_map).mp hmem
      rw [hbindL] at heL
      obtain ⟨pe, hpe, hpee⟩ := (List.mem_map).mp heL
      obtain ⟨hpem, hpep⟩ := List.mem_filter.mp hpe
      obtain ⟨ne, hne, hpene⟩ := (List.mem_map).mp hpem
      obtain ⟨e', he', _, hpath⟩ := hA ne hne (by rw [hpene]; simpa using hpep)
      have : q = e'.1 := by
        rw [← hek, ← hpee]
        dsimp only
        rw [← hpath, hpene]
      rw [this] at hq
      rw [mapGet_of_mem_nodup hp.bindKeysNodup he'] at hq
      exact Option.noConfusion hq
  · intro e he
    obtain ⟨f, hgf, hpf, hmemf⟩ := hB e he
    refine ⟨(e.1, e.2), ?_, rfl⟩
    rw [hbindL]
    refine (List.mem_map).mpr ⟨processSlot (e.2, f), ?_, by rw [hpf]⟩
    refine List.mem_filter.mpr ⟨(List.mem_map).mpr ⟨(e.2, f), hmemf, rfl⟩, ?_⟩
    rw [hpf]
    simpa using hp.bindNonempty e he
  · intro ne hne
    show ne.1 ∈ _ ++ _
    by_cases hpe : (processSlot ne).2 = ""
    · refine List.mem_append.mpr (Or.inl ?_)
      refine (List.mem_map).mpr ⟨processSlot ne, ?_, processSlot_name ne⟩
      exact List.mem_filter.mpr ⟨(List.mem_map).mpr ⟨ne, hne, rfl⟩, by simpa using hpe⟩
    · refine List.mem_append.mpr (Or.inr ?_)
      refine (List.mem_map).mpr ⟨processSlot ne, ?_, processSlot_name ne⟩
      exact List.mem_filter.mpr ⟨(List.mem_map).mpr ⟨ne, hne, rfl⟩, by simpa using hpe⟩
  · intro ne hne hnb
    rintro ⟨e, heL, hev⟩
    rw [hbindL] at heL
    obtain ⟨pe, hpe, hpee⟩ := (List.mem_map).mp heL
    obtain ⟨hpem, hpep⟩ := List.mem_filter.mp hpe
    obtain ⟨ne', hne', hpene⟩ := (List.mem_map).mp hpem
    have hname : ne'.1 = ne.1 := by
      rw [← processSlot_name ne', hpene]
      rw [show pe.1.1 = e.2 from by rw [← hpee], hev]
    have hne12 : ne' = ne := by
      have g1 := mapGet_of_mem_nodup hp.diskKeysNodup hne'
      have g2 := mapGet_of_mem_nodup hp.diskKeysNodup hne
      rw [hname] at g1
      rw [g1] at g2
      injection g2 with gv
      exact Prod.ext hname gv
    obtain ⟨e', he', hev', _⟩ := hA ne' hne' (by rw [hpene]; simpa using hpep)
    rw [hne12] at hev'
    exact hnb ⟨e', he', hev'⟩

/-- A two-slot state with one persisted binding, as left by a flush. -/
def persistedState : VFSState :=
  { pool := ["s2", "s1"]
    bindings := [("/a.db", "s1")]
    openFiles := []
    disk := [("s1", boundFile freedFile "/a.db"), ("s2", freedFile)] }

set_option maxRecDepth 1000000 in
theorem reconcile_rebuilds_bindings_witness :
    (∀ q, mapGet (reconcileDisk persistedState.disk).bindings q =
      mapGet persistedState.bindings q) ∧
    (∀ e ∈ persistedState.bindings,
      isBound (reconcileDisk persistedState.disk) e.2) ∧
    (∀ ne ∈ persistedState.disk, ne.1 ∈ (reconcileDisk persistedState.disk).pool) ∧
    (∀ ne ∈ persistedState.disk, (¬ ∃ e ∈ persistedState.bindings, e.2 = ne.1) →
      ¬ isBound (reconcileDisk persistedState.disk) ne.1) :=
  reconcile_rebuilds_bindings
    ⟨by decide, by decide, by decide, by decide, by decide, by decide⟩

end WaSqlite
